import Mathlib

/-!
Verification of the cv-anonymiser core against its specification.

Shallow embedding of src/lambda/app.py: the redaction engine (Python
re.sub over the email and phone patterns), the salted SHA-256 audit
commitment, the rules cache, the audit writer and the /anonymise handler.
Python regular-expression matching is embedded as a backtracking matcher
over the two concrete linear patterns used by the code; machine-level
Python details (Unicode word characters beyond ASCII) are modelled at the
ASCII level, which covers every character class the patterns mention.
-/

namespace CvAnon

/-! ## Character classes of the two regexes (ASCII reading) -/

/-- ASCII letter, as in the pattern classes A-Za-z. -/
def isAsciiAlpha (c : Char) : Bool :=
  (65 ≤ c.toNat && c.toNat ≤ 90) || (97 ≤ c.toNat && c.toNat ≤ 122)

/-- ASCII digit 0-9, the embedding of the regex class \d. -/
def isAsciiDigit (c : Char) : Bool :=
  48 ≤ c.toNat && c.toNat ≤ 57

/-- Word character for the \b word-boundary assertion: letter, digit or
underscore. -/
def isWordChar (c : Char) : Bool :=
  isAsciiAlpha c || isAsciiDigit c || c = '_'

/-- The local-part class of the email pattern: [A-Za-z0-9._%+-]. -/
def isLocalChar (c : Char) : Bool :=
  isAsciiAlpha c || isAsciiDigit c || c = '.' || c = '_' || c = '%' || c = '+' || c = '-'

/-- The domain class of the email pattern: [A-Za-z0-9.-]. -/
def isDomChar (c : Char) : Bool :=
  isAsciiAlpha c || isAsciiDigit c || c = '.' || c = '-'

/-- Whitespace of the regex class \s (ASCII reading). -/
def isSpaceChar (c : Char) : Bool :=
  c = ' ' || c = '\t' || c = '\n' || c = '\r' || c = '\x0b' || c = '\x0c'

/-- The repeated middle class of the phone pattern: [\d\s().-]. -/
def isPhoneMidChar (c : Char) : Bool :=
  isAsciiDigit c || isSpaceChar c || c = '(' || c = ')' || c = '.' || c = '-'

/-- Word-ness of an optional character; the absent character (start or end
of the string) counts as non-word, as in Python. -/
def wordOpt : Option Char → Bool
  | none => false
  | some c => isWordChar c

/-- The \b assertion between a previous and a next character: exactly one
side is a word character. -/
def isBoundary (prev next : Option Char) : Bool :=
  wordOpt prev != wordOpt next

/-! ## A backtracking matcher for linear patterns

Both patterns of the code are linear: a sequence of greedy counted
character-class repeats and word-boundary assertions, with no alternation
and no nested repetition.  The matcher below reproduces Python's
backtracking order on such patterns: a repeat first consumes as much as it
can and backs off one character at a time until the tail of the pattern
matches. -/

/-- One element of a linear pattern: a greedy repeat of a character class
with a minimum count and an optional maximum, or a word-boundary
assertion. -/
inductive RElem where
  | cls (p : Char → Bool) (lo : Nat) (hi : Option Nat)
  | wordB

/-- Length of the maximal prefix of s whose characters satisfy p. -/
def countRun (p : Char → Bool) : List Char → Nat
  | [] => 0
  | c :: t => if p c then countRun p t + 1 else 0

/-- The previous-character context after consuming the given characters:
their last character, or the old context when nothing was consumed. -/
def advPrev (prev : Option Char) (consumed : List Char) : Option Char :=
  match consumed.getLast? with
  | some c => some c
  | none => prev

/-- Greedy backtracking over one repeat: try consuming k characters of s,
then k-1, ... down to lo, returning the total consumed length of the
first attempt for which the continuation succeeds. -/
def tryCls (s : List Char) (prev : Option Char) (lo : Nat)
    (cont : Option Char → List Char → Option Nat) : Nat → Option Nat
  | 0 =>
    if lo = 0 then cont prev s else none
  | k + 1 =>
    match cont (advPrev prev (s.take (k + 1))) (s.drop (k + 1)) with
    | some n => some (k + 1 + n)
    | none =>
      if lo = k + 1 then none
      else tryCls s prev lo cont k

/-- Match a linear pattern at the start of s under the previous-character
context prev, returning the number of characters consumed by the first
match found in Python's backtracking order. -/
def matchSeq : List RElem → Option Char → List Char → Option Nat
  | [], _, _ => some 0
  | RElem.wordB :: rest, prev, s =>
    if isBoundary prev s.head? then matchSeq rest prev s else none
  | RElem.cls p lo hi :: rest, prev, s =>
    let run := countRun p s
    let top := match hi with
      | some m => min run m
      | none => run
    if top < lo then none
    else tryCls s prev lo (fun prev1 s1 => matchSeq rest prev1 s1) top

/-- Whether the pattern matches at some position of s (scanning left to
right with the given previous-character context). -/
def hasMatchB (pat : List RElem) : Option Char → List Char → Bool
  | prev, [] => (matchSeq pat prev []).isSome
  | prev, c :: t => (matchSeq pat prev (c :: t)).isSome || hasMatchB pat (some c) t

/-- Fuelled left-to-right scan of re.sub: at each position try the pattern;
on a match emit the replacement and resume after the consumed characters
(for an empty match, also copy one character), otherwise copy one
character.  Matching always reads the original characters, as re.sub
does. -/
def subScanF (pat : List RElem) (repl : List Char) :
    Nat → Option Char → List Char → List Char
  | 0, _, s => s
  | _ + 1, prev, [] =>
    match matchSeq pat prev [] with
    | some _ => repl
    | none => []
  | b + 1, prev, c :: t =>
    match matchSeq pat prev (c :: t) with
    | none => c :: subScanF pat repl b (some c) t
    | some 0 => repl ++ c :: subScanF pat repl b (some c) t
    | some (n + 1) =>
      repl ++ subScanF pat repl b (advPrev prev ((c :: t).take (n + 1))) ((c :: t).drop (n + 1))

/-- re.sub of a linear pattern with a constant replacement over a list of
characters. -/
def subScan (pat : List RElem) (repl : List Char) (prev : Option Char)
    (s : List Char) : List Char :=
  subScanF pat repl (s.length + 1) prev s

/-! ## The two patterns of the code -/

/-- The email pattern of _redact_email:
\b[A-Za-z0-9._%+-]+@[A-Za-z0-9.-]+\.[A-Za-z]\x7b2,\x7d\b. -/
def emailPat : List RElem :=
  [RElem.wordB,
   RElem.cls isLocalChar 1 none,
   RElem.cls (fun c => c = '@') 1 (some 1),
   RElem.cls isDomChar 1 none,
   RElem.cls (fun c => c = '.') 1 (some 1),
   RElem.cls isAsciiAlpha 2 none,
   RElem.wordB]

/-- The phone pattern of _redact_phone: \b(\+?\d[\d\s().-]\x7b7,\x7d\d)\b. -/
def phonePat : List RElem :=
  [RElem.wordB,
   RElem.cls (fun c => c = '+') 0 (some 1),
   RElem.cls isAsciiDigit 1 (some 1),
   RElem.cls isPhoneMidChar 7 none,
   RElem.cls isAsciiDigit 1 (some 1),
   RElem.wordB]

/-- The email sentinel. -/
def emailSentinel : String := "[REDACTED_EMAIL]"

/-- The phone sentinel. -/
def phoneSentinel : String := "[REDACTED_PHONE]"

/-- Embedding of _redact_email. -/
def redactEmail (text : String) : String :=
  String.mk (subScan emailPat emailSentinel.data none text.data)

/-- Embedding of _redact_phone. -/
def redactPhone (text : String) : String :=
  String.mk (subScan phonePat phoneSentinel.data none text.data)

/-- Embedding of _apply_redaction on a list of rule identifiers: email
first, then phone, each recording the binary changed-flag in insertion
order. -/
def applyRedactionL (text : String) (redact : List String) :
    String × List (String × Nat) :=
  let step1 :=
    if redact.contains "email" then
      let out := redactEmail text
      (out, [("email", if text = out then 0 else 1)])
    else (text, ([] : List (String × Nat)))
  let out1 := step1.1
  if redact.contains "phone" then
    let out2 := redactPhone out1
    (out2, step1.2 ++ [("phone", if out1 = out2 then 0 else 1)])
  else (out1, step1.2)

/-- Look up a rule's recorded count. -/
def lookupCount (k : String) (l : List (String × Nat)) : Option Nat :=
  (l.find? (fun kv => kv.1 = k)).map (fun kv => kv.2)

/-! ## UTF-8 and SHA-256, the embedding of str.encode and hashlib.sha256 -/

/-- UTF-8 encoding of one character (valid scalar values, as Python's
str.encode produces). -/
def utf8EncodeChar (c : Char) : List Nat :=
  let n := c.toNat
  if n < 128 then [n]
  else if n < 2048 then [192 + n / 64, 128 + n % 64]
  else if n < 65536 then [224 + n / 4096, 128 + n / 64 % 64, 128 + n % 64]
  else [240 + n / 262144, 128 + n / 4096 % 64, 128 + n / 64 % 64, 128 + n % 64]

/-- UTF-8 bytes of a string. -/
def utf8Encode (s : String) : List Nat :=
  s.data.flatMap utf8EncodeChar

/-- Word size modulus of SHA-256 arithmetic. -/
def w32 : Nat := 4294967296

/-- Right rotation of a 32-bit word. -/
def rotr32 (x n : Nat) : Nat :=
  ((x >>> n) ||| (x <<< (32 - n))) % w32

/-- Bitwise complement within 32 bits. -/
def not32 (x : Nat) : Nat := 4294967295 - x

/-- The 64 SHA-256 round constants. -/
def sha256K : List Nat :=
  [1116352408, 1899447441, 3049323471, 3921009573, 961987163, 1508970993,
   2453635748, 2870763221, 3624381080, 310598401, 607225278, 1426881987,
   1925078388, 2162078206, 2614888103, 3248222580, 3835390401, 4022224774,
   264347078, 604807628, 770255983, 1249150122, 1555081692, 1996064986,
   2554220882, 2821834349, 2952996808, 3210313671, 3336571891, 3584528711,
   113926993, 338241895, 666307205, 773529912, 1294757372, 1396182291,
   1695183700, 1986661051, 2177026350, 2456956037, 2730485921, 2820302411,
   3259730800, 3345764771, 3516065817, 3600352804, 4094571909, 275423344,
   430227734, 506948616, 659060556, 883997877, 958139571, 1322822218,
   1537002063, 1747873779, 1955562222, 2024104815, 2227730452, 2361852424,
   2428436474, 2756734187, 3204031479, 3329325298]

/-- Big-endian 8-byte encoding of the bit length. -/
def toBE8 (n : Nat) : List Nat :=
  [n / 72057594037927936 % 256, n / 281474976710656 % 256,
   n / 1099511627776 % 256, n / 4294967296 % 256,
   n / 16777216 % 256, n / 65536 % 256, n / 256 % 256, n % 256]

/-- SHA-256 padding: append 0x80, zeros to 56 mod 64, and the 64-bit
big-endian bit length. -/
def sha256Pad (msg : List Nat) : List Nat :=
  let len := msg.length
  let zeros := (64 - (len + 9) % 64) % 64
  msg ++ 128 :: List.replicate zeros 0 ++ toBE8 (8 * len)

/-- Group bytes into big-endian 32-bit words. -/
def bytesToWords : List Nat → List Nat
  | b0 :: b1 :: b2 :: b3 :: rest =>
    (((b0 * 256 + b1) * 256 + b2) * 256 + b3) :: bytesToWords rest
  | _ => []

/-- The small sigma-0 function. -/
def ssig0 (x : Nat) : Nat := (rotr32 x 7) ^^^ (rotr32 x 18) ^^^ (x >>> 3)

/-- The small sigma-1 function. -/
def ssig1 (x : Nat) : Nat := (rotr32 x 17) ^^^ (rotr32 x 19) ^^^ (x >>> 10)

/-- The big sigma-0 function. -/
def bsig0 (x : Nat) : Nat := (rotr32 x 2) ^^^ (rotr32 x 13) ^^^ (rotr32 x 22)

/-- The big sigma-1 function. -/
def bsig1 (x : Nat) : Nat := (rotr32 x 6) ^^^ (rotr32 x 11) ^^^ (rotr32 x 25)

/-- Message-schedule extension: run k steps, keeping the schedule so far in
reverse order. -/
def schedExt : Nat → List Nat → List Nat
  | 0, acc => acc
  | k + 1, acc =>
    let g := fun i => (acc.get? i).getD 0
    let w := (ssig1 (g 1) + g 6 + ssig0 (g 14) + g 15) % w32
    schedExt k (w :: acc)

/-- The running hash state: eight 32-bit words. -/
structure H8 where
  a : Nat
  b : Nat
  c : Nat
  d : Nat
  e : Nat
  f : Nat
  g : Nat
  h : Nat

/-- One SHA-256 compression round. -/
def sha256Round (st : H8) (kw : Nat × Nat) : H8 :=
  let ch := ((st.e &&& st.f) ^^^ (not32 st.e &&& st.g)) % w32
  let maj := ((st.a &&& st.b) ^^^ (st.a &&& st.c) ^^^ (st.b &&& st.c)) % w32
  let t1 := (st.h + bsig1 st.e + ch + kw.1 + kw.2) % w32
  let t2 := (bsig0 st.a + maj) % w32
  ⟨(t1 + t2) % w32, st.a, st.b, st.c, (st.d + t1) % w32, st.e, st.f, st.g⟩

/-- Compress one 16-word block into the state. -/
def sha256Compress (st : H8) (block : List Nat) : H8 :=
  let ws := (schedExt 48 block.reverse).reverse
  let r := (sha256K.zip ws).foldl sha256Round st
  ⟨(st.a + r.a) % w32, (st.b + r.b) % w32, (st.c + r.c) % w32, (st.d + r.d) % w32,
   (st.e + r.e) % w32, (st.f + r.f) % w32, (st.g + r.g) % w32, (st.h + r.h) % w32⟩

/-- Fold the compression over successive 16-word blocks. -/
def sha256Blocks : List Nat → H8 → H8
  | w0 :: w1 :: w2 :: w3 :: w4 :: w5 :: w6 :: w7 ::
    w8 :: w9 :: w10 :: w11 :: w12 :: w13 :: w14 :: w15 :: rest, st =>
    sha256Blocks rest
      (sha256Compress st [w0, w1, w2, w3, w4, w5, w6, w7, w8, w9, w10, w11, w12, w13, w14, w15])
  | _, st => st

/-- The SHA-256 digest of a byte list, as 32 bytes. -/
def sha256Bytes (msg : List Nat) : List Nat :=
  let st0 : H8 := ⟨1779033703, 3144134277, 1013904242, 2773480762,
                   1359893119, 2600822924, 528734635, 1541459225⟩
  let st := sha256Blocks (bytesToWords (sha256Pad msg)) st0
  [st.a, st.b, st.c, st.d, st.e, st.f, st.g, st.h].flatMap
    (fun w => [w / 16777216 % 256, w / 65536 % 256, w / 256 % 256, w % 256])

/-- Lowercase hex digit. -/
def hexDigit (n : Nat) : Char :=
  if n < 10 then Char.ofNat (48 + n) else Char.ofNat (87 + n)

/-- Lowercase hex encoding of a byte list, as hexdigest produces. -/
def bytesToHex (bs : List Nat) : String :=
  String.mk (bs.flatMap (fun b => [hexDigit (b / 16 % 16), hexDigit (b % 16)]))

/-- Hex-encoded SHA-256 of a byte list. -/
def sha256Hex (msg : List Nat) : String :=
  bytesToHex (sha256Bytes msg)

/-- Embedding of _salted_hash: hexdigest of SHA-256 over the UTF-8 bytes
of the Python string concatenation salt + text. -/
def saltedHash (text salt : String) : String :=
  sha256Hex (utf8Encode (salt ++ text))

/-! ## JSON values and small pieces of Python semantics -/

/-- A parsed JSON document, the possible results of json.loads. -/
inductive Json where
  | null
  | bool (b : Bool)
  | num (n : Int)
  | str (s : String)
  | arr (elems : List Json)
  | obj (fields : List (String × Json))

mutual

/-- Equality of parsed JSON values is decidable. -/
def jsonDecEq : (a b : Json) → Decidable (a = b)
  | Json.null, Json.null => isTrue rfl
  | Json.bool x, Json.bool y =>
    match decEq x y with
    | isTrue h => isTrue (by rw [h])
    | isFalse h => isFalse (fun hh => h (Json.bool.inj hh))
  | Json.num x, Json.num y =>
    match decEq x y with
    | isTrue h => isTrue (by rw [h])
    | isFalse h => isFalse (fun hh => h (Json.num.inj hh))
  | Json.str x, Json.str y =>
    match decEq x y with
    | isTrue h => isTrue (by rw [h])
    | isFalse h => isFalse (fun hh => h (Json.str.inj hh))
  | Json.arr xs, Json.arr ys =>
    match jsonDecEqL xs ys with
    | isTrue h => isTrue (by rw [h])
    | isFalse h => isFalse (fun hh => h (Json.arr.inj hh))
  | Json.obj xs, Json.obj ys =>
    match jsonDecEqO xs ys with
    | isTrue h => isTrue (by rw [h])
    | isFalse h => isFalse (fun hh => h (Json.obj.inj hh))
  | Json.null, Json.bool _ => isFalse (by intro h; exact Json.noConfusion h)
  | Json.null, Json.num _ => isFalse (by intro h; exact Json.noConfusion h)
  | Json.null, Json.str _ => isFalse (by intro h; exact Json.noConfusion h)
  | Json.null, Json.arr _ => isFalse (by intro h; exact Json.noConfusion h)
  | Json.null, Json.obj _ => isFalse (by intro h; exact Json.noConfusion h)
  | Json.bool _, Json.null => isFalse (by intro h; exact Json.noConfusion h)
  | Json.bool _, Json.num _ => isFalse (by intro h; exact Json.noConfusion h)
  | Json.bool _, Json.str _ => isFalse (by intro h; exact Json.noConfusion h)
  | Json.bool _, Json.arr _ => isFalse (by intro h; exact Json.noConfusion h)
  | Json.bool _, Json.obj _ => isFalse (by intro h; exact Json.noConfusion h)
  | Json.num _, Json.null => isFalse (by intro h; exact Json.noConfusion h)
  | Json.num _, Json.bool _ => isFalse (by intro h; exact Json.noConfusion h)
  | Json.num _, Json.str _ => isFalse (by intro h; exact Json.noConfusion h)
  | Json.num _, Json.arr _ => isFalse (by intro h; exact Json.noConfusion h)
  | Json.num _, Json.obj _ => isFalse (by intro h; exact Json.noConfusion h)
  | Json.str _, Json.null => isFalse (by intro h; exact Json.noConfusion h)
  | Json.str _, Json.bool _ => isFalse (by intro h; exact Json.noConfusion h)
  | Json.str _, Json.num _ => isFalse (by intro h; exact Json.noConfusion h)
  | Json.str _, Json.arr _ => isFalse (by intro h; exact Json.noConfusion h)
  | Json.str _, Json.obj _ => isFalse (by intro h; exact Json.noConfusion h)
  | Json.arr _, Json.null => isFalse (by intro h; exact Json.noConfusion h)
  | Json.arr _, Json.bool _ => isFalse (by intro h; exact Json.noConfusion h)
  | Json.arr _, Json.num _ => isFalse (by intro h; exact Json.noConfusion h)
  | Json.arr _, Json.str _ => isFalse (by intro h; exact Json.noConfusion h)
  | Json.arr _, Json.obj _ => isFalse (by intro h; exact Json.noConfusion h)
  | Json.obj _, Json.null => isFalse (by intro h; exact Json.noConfusion h)
  | Json.obj _, Json.bool _ => isFalse (by intro h; exact Json.noConfusion h)
  | Json.obj _, Json.num _ => isFalse (by intro h; exact Json.noConfusion h)
  | Json.obj _, Json.str _ => isFalse (by intro h; exact Json.noConfusion h)
  | Json.obj _, Json.arr _ => isFalse (by intro h; exact Json.noConfusion h)

/-- Equality of JSON value lists is decidable. -/
def jsonDecEqL : (xs ys : List Json) → Decidable (xs = ys)
  | [], [] => isTrue rfl
  | [], _ :: _ => isFalse (by intro h; exact List.noConfusion h)
  | _ :: _, [] => isFalse (by intro h; exact List.noConfusion h)
  | x :: xs, y :: ys =>
    match jsonDecEq x y with
    | isFalse h => isFalse (fun hh => h (List.cons.inj hh).1)
    | isTrue h1 =>
      match jsonDecEqL xs ys with
      | isTrue h2 => isTrue (by rw [h1, h2])
      | isFalse h => isFalse (fun hh => h (List.cons.inj hh).2)

/-- Equality of JSON object field lists is decidable. -/
def jsonDecEqO : (xs ys : List (String × Json)) → Decidable (xs = ys)
  | [], [] => isTrue rfl
  | [], _ :: _ => isFalse (by intro h; exact List.noConfusion h)
  | _ :: _, [] => isFalse (by intro h; exact List.noConfusion h)
  | (k1, v1) :: xs, (k2, v2) :: ys =>
    match decEq k1 k2 with
    | isFalse h => isFalse (fun hh => h (congrArg Prod.fst (List.cons.inj hh).1))
    | isTrue hk =>
      match jsonDecEq v1 v2 with
      | isFalse h => isFalse (fun hh => h (congrArg Prod.snd (List.cons.inj hh).1))
      | isTrue hv =>
        match jsonDecEqO xs ys with
        | isTrue ht => isTrue (by rw [hk, hv, ht])
        | isFalse h => isFalse (fun hh => h (List.cons.inj hh).2)

end

instance : DecidableEq Json := jsonDecEq

/-- Python truthiness of a parsed JSON value (bool(x)): empty containers,
empty strings, zero, None and False are falsy. -/
def jsonTruthy : Json → Bool
  | Json.null => false
  | Json.bool b => b
  | Json.num n => n != 0
  | Json.str s => !(s = "")
  | Json.arr l => !l.isEmpty
  | Json.obj l => !l.isEmpty

/-- Python str.strip() with no argument (ASCII whitespace reading). -/
def pyStrip (s : String) : String :=
  String.mk (((s.data.dropWhile isSpaceChar).reverse.dropWhile isSpaceChar).reverse)

/-- Does needle start hay? -/
def startsWithL : List Char → List Char → Bool
  | [], _ => true
  | _ :: _, [] => false
  | a :: as, b :: bs => a = b && startsWithL as bs

/-- Substring containment on character lists. -/
def containsSub (needle : List Char) : List Char → Bool
  | [] => startsWithL needle []
  | c :: t => startsWithL needle (c :: t) || containsSub needle t

/-- Python membership test x in y for a string x against a parsed JSON
value: list and dict membership, substring test on strings, and a
TypeError otherwise. -/
def pyIn (needle : String) : Json → Except Unit Bool
  | Json.arr l =>
    Except.ok (l.any (fun e => match e with
      | Json.str s => s = needle
      | _ => false))
  | Json.obj l => Except.ok (l.any (fun kv => kv.1 = needle))
  | Json.str s => Except.ok (containsSub needle.data s.data)
  | _ => Except.error ()

/-! ## The rules cache (_load_rules and its module-level state) -/

/-- The module-level cache slot: _rules_cache and _rules_cache_loaded_at.
Timestamps are modelled as integers (seconds). -/
structure CacheSt where
  cache : Option Json
  loadedAt : Int
deriving DecidableEq

/-- The audit row built by _write_audit (no PII fields). -/
structure AuditItem where
  requestId : String
  ts : Int
  ttl : Int
  cvHash : String
  ruleCounts : List (String × Nat)
deriving DecidableEq

/-- The process environment of the Lambda module: configuration read at
module load time, the behaviour of the two external collaborators, and
this invocation's clock reading and generated UUID. -/
structure Env where
  auditTableName : String
  saltFallback : String
  fetchRules : Except Unit Json
  putItem : AuditItem → Except Unit Unit
  now : Int
  newUuid : String

/-- The fallback rules document built inline in _load_rules. -/
def fallbackRules (env : Env) : Json :=
  Json.obj [("redact", Json.arr [Json.str "email", Json.str "phone"]),
            ("salt", Json.str env.saltFallback)]

/-- Embedding of _load_rules: return the cached document while the slot is
truthy and younger than 60 seconds; otherwise fetch and parse, replacing
any failure or non-object result by the fallback document, and restamp the
cache.  The third component records whether an external fetch happened.
env.fetchRules is the combined outcome of ssm.get_parameter and
json.loads: an exception from either is Except.error. -/
def loadRules (env : Env) (st : CacheSt) : Json × CacheSt × Bool :=
  match st.cache with
  | some doc =>
    if jsonTruthy doc && decide (env.now - st.loadedAt < 60) then (doc, st, false)
    else
      let rules := match env.fetchRules with
        | Except.ok (Json.obj fields) => Json.obj fields
        | _ => fallbackRules env
      (rules, ⟨some rules, env.now⟩, true)
  | none =>
    let rules := match env.fetchRules with
      | Except.ok (Json.obj fields) => Json.obj fields
      | _ => fallbackRules env
    (rules, ⟨some rules, env.now⟩, true)

/-! ## Audit writer and the /anonymise handler -/

/-- Exceptions the handler can raise: an HTTPException carrying a status
and detail, and uncaught Python exceptions (TypeError from applying
redaction or hashing to ill-shaped rules values, or the audit sink's
exception from put_item, which _write_audit does not catch). -/
inductive PyExc where
  | httpEx (status : Nat) (detail : String)
  | typeErr
  | sinkErr
deriving DecidableEq

/-- The 200 response body of the handler. -/
structure AnonResp where
  requestId : String
  anonymisedText : String
  rulesApplied : Json
deriving DecidableEq

/-- Embedding of _apply_redaction as called by the handler, where the
redact value came from JSON: Python's in test may raise TypeError. -/
def applyRedactionJ (text : String) (redact : Json) :
    Except PyExc (String × List (String × Nat)) :=
  match pyIn "email" redact with
  | Except.error _ => Except.error PyExc.typeErr
  | Except.ok hasEmail =>
    let step1 :=
      if hasEmail then
        let out := redactEmail text
        (out, [("email", if text = out then 0 else 1)])
      else (text, ([] : List (String × Nat)))
    match pyIn "phone" redact with
    | Except.error _ => Except.error PyExc.typeErr
    | Except.ok hasPhone =>
      let out1 := step1.1
      if hasPhone then
        let out2 := redactPhone out1
        Except.ok (out2, step1.2 ++ [("phone", if out1 = out2 then 0 else 1)])
      else Except.ok (out1, step1.2)

/-- Embedding of _write_audit: skip and report false when no table is
configured; otherwise build the item and put it.  An exception from
put_item propagates — the code has no try/except here.  Returns the
written flag and the list of rows actually persisted. -/
def writeAudit (env : Env) (requestId cvHash : String)
    (ruleCounts : List (String × Nat)) : Except PyExc (Bool × List AuditItem) :=
  if env.auditTableName = "" then Except.ok (false, [])
  else
    let item : AuditItem :=
      ⟨requestId, env.now, env.now + 7 * 24 * 60 * 60, cvHash, ruleCounts⟩
    match env.putItem item with
    | Except.ok _ => Except.ok (true, [item])
    | Except.error _ => Except.error PyExc.sinkErr

instance {ε α : Type} [DecidableEq ε] [DecidableEq α] : DecidableEq (Except ε α) :=
  fun a b =>
    match a, b with
    | Except.ok x, Except.ok y =>
      match decEq x y with
      | isTrue h => isTrue (by rw [h])
      | isFalse h => isFalse (fun hh => h (Except.ok.inj hh))
    | Except.error x, Except.error y =>
      match decEq x y with
      | isTrue h => isTrue (by rw [h])
      | isFalse h => isFalse (fun hh => h (Except.error.inj hh))
    | Except.ok _, Except.error _ => isFalse (fun hh => Except.noConfusion hh)
    | Except.error _, Except.ok _ => isFalse (fun hh => Except.noConfusion hh)

/-- Everything observable about one handler invocation: its outcome, the
cache slot afterwards, the audit rows persisted, and whether a rules
fetch happened. -/
structure AnonOut where
  result : Except PyExc AnonResp
  cacheAfter : CacheSt
  writes : List AuditItem
  fetched : Bool
deriving DecidableEq

/-- Embedding of the anonymise handler body (after request parsing): strip
and validate the text, load rules, extract redact and salt with dict.get
defaults, redact, hash the validated text with the salt, attempt the audit
write, and return the response. -/
def anonymise (env : Env) (st : CacheSt) (text : String) : AnonOut :=
  let t := pyStrip text
  if t = "" then
    ⟨Except.error (PyExc.httpEx 400 "text is required"), st, [], false⟩
  else
    match loadRules env st with
    | (rules, st1, fetched) =>
      match rules with
      | Json.obj fields =>
        let redactJ := ((fields.find? (fun kv => kv.1 = "redact")).map
          (fun kv => kv.2)).getD (Json.arr [Json.str "email", Json.str "phone"])
        let saltJ := ((fields.find? (fun kv => kv.1 = "salt")).map
          (fun kv => kv.2)).getD (Json.str env.saltFallback)
        match applyRedactionJ t redactJ with
        | Except.error e => ⟨Except.error e, st1, [], fetched⟩
        | Except.ok (anonymised, counts) =>
          match saltJ with
          | Json.str salt =>
            let cvHash := saltedHash t salt
            match writeAudit env env.newUuid cvHash counts with
            | Except.error e => ⟨Except.error e, st1, [], fetched⟩
            | Except.ok (_, items) =>
              ⟨Except.ok ⟨env.newUuid, anonymised, redactJ⟩, st1, items, fetched⟩
          | _ => ⟨Except.error PyExc.typeErr, st1, [], fetched⟩
      | _ => ⟨Except.error PyExc.typeErr, st1, [], fetched⟩

/-- An HTTP outcome of the POST /anonymise endpoint. -/
inductive HttpOut where
  | ok (resp : AnonResp)
  | clientErr (status : Nat) (detail : String)
  | validationErr
  | serverErr
deriving DecidableEq

/-- The status code of an endpoint outcome.  validationErr is FastAPI's
handling of a pydantic RequestValidationError, which it surfaces as
HTTP 422; an uncaught exception becomes HTTP 500. -/
def statusOf : HttpOut → Nat
  | HttpOut.ok _ => 200
  | HttpOut.clientErr s _ => s
  | HttpOut.validationErr => 422
  | HttpOut.serverErr => 500

/-- The POST /anonymise endpoint: the body's text field is none when
missing or not a string, in which case pydantic validation of the
required field text: str fails before the handler runs (HTTP 422 under
FastAPI); otherwise the handler body runs and HTTPException or an
uncaught exception shape the response. -/
def anonymiseEndpoint (env : Env) (st : CacheSt) (body : Option String) :
    HttpOut × CacheSt × List AuditItem :=
  match body with
  | none => (HttpOut.validationErr, st, [])
  | some text =>
    let o := anonymise env st text
    (match o.result with
     | Except.ok r => HttpOut.ok r
     | Except.error (PyExc.httpEx s d) => HttpOut.clientErr s d
     | Except.error _ => HttpOut.serverErr, o.cacheAfter, o.writes)

/-- The guard of the cache-hit branch of _load_rules: a cache slot counts
as fresh when it holds a truthy document loaded less than 60 seconds
ago. -/
def cacheFresh (env : Env) (st : CacheSt) : Bool :=
  match st.cache with
  | none => false
  | some doc => jsonTruthy doc && decide (env.now - st.loadedAt < 60)

/-- Whether a JSON value is an object, the isinstance(rules, dict) test. -/
def jsonIsObj : Json → Bool
  | Json.obj _ => true
  | _ => false

/-- The document the fetch path of _load_rules produces: the fetched JSON
object, or the fallback document on any failure or non-object value. -/
def fetchOutcome (env : Env) : Json :=
  match env.fetchRules with
  | Except.ok (Json.obj fields) => Json.obj fields
  | _ => fallbackRules env

/-- Whether the text contains a run of 8 or more consecutive digits (the
hypothesis of the spec's phone no-op property). -/
def hasLongDigitRun : List Char → Bool
  | [] => false
  | c :: t => decide (8 ≤ countRun isAsciiDigit (c :: t)) || hasLongDigitRun t

/-- The salt string the handler ends up hashing with: the salt field of
the loaded rules (or the fallback salt), when it is a string. -/
def effectiveSalt (env : Env) (st : CacheSt) : String :=
  match (loadRules env st).1 with
  | Json.obj fields =>
    match ((fields.find? (fun kv => kv.1 = "salt")).map (fun kv => kv.2)).getD
        (Json.str env.saltFallback) with
    | Json.str s => s
    | _ => ""
  | _ => ""

/-! ## The declarative matching relation and the matcher's adequacy -/

/-- Declarative matching: MSeq pat prev s n holds when the linear pattern
can consume exactly n characters at the front of s under the
previous-character context prev. -/
inductive MSeq : List RElem → Option Char → List Char → Nat → Prop
  | nil (prev : Option Char) (s : List Char) : MSeq [] prev s 0
  | wordB {rest : List RElem} {prev : Option Char} {s : List Char} {n : Nat}
      (hb : isBoundary prev s.head? = true)
      (h : MSeq rest prev s n) : MSeq (RElem.wordB :: rest) prev s n
  | cls {p : Char → Bool} {lo : Nat} {hi : Option Nat} {rest : List RElem}
      {prev : Option Char} {s : List Char} {k n : Nat}
      (hk : k ≤ s.length)
      (hall : ∀ c ∈ s.take k, p c = true)
      (hlo : lo ≤ k)
      (hhi : ∀ m, hi = some m → k ≤ m)
      (h : MSeq rest (advPrev prev (s.take k)) (s.drop k) n) :
      MSeq (RElem.cls p lo hi :: rest) prev s (k + n)

/-- The shape facts the idempotence argument needs about a pattern: its
matches are nonempty, consist of bracket-free characters, contain a
marker character, end in a word character followed by a non-word
character, and demand a word boundary at their start. -/
def PatOk (pat : List RElem) (mark : Char → Bool) : Prop :=
  ∀ (prev : Option Char) (s : List Char) (n : Nat), MSeq pat prev s n →
    1 ≤ n ∧
    (∀ c ∈ s.take n, c ≠ '[' ∧ c ≠ ']') ∧
    (∃ c ∈ s.take n, mark c = true) ∧
    wordOpt ((s.take n).getLast?) = true ∧
    wordOpt ((s.drop n).head?) = false ∧
    isBoundary prev s.head? = true

theorem countRun_le_length (p : Char → Bool) : ∀ s : List Char, countRun p s ≤ s.length := by
  intro s
  induction s with
  | nil => simp [countRun]
  | cons c t ih =>
    simp only [countRun, List.length_cons]
    split
    · omega
    · omega

theorem take_countRun_sat (p : Char → Bool) :
    ∀ s : List Char, ∀ c ∈ s.take (countRun p s), p c = true := by
  intro s
  induction s with
  | nil => intro c hc; simp at hc
  | cons a t ih =>
    intro c hc
    simp only [countRun] at hc
    by_cases hp : p a
    · rw [if_pos hp] at hc
      rw [List.take_succ_cons] at hc
      rcases List.mem_cons.mp hc with h1 | h2
      · rw [h1]; exact hp
      · exact ih c h2
    · rw [if_neg hp] at hc
      simp at hc

theorem le_countRun_of_take (p : Char → Bool) :
    ∀ (s : List Char) (k : Nat), k ≤ s.length → (∀ c ∈ s.take k, p c = true) →
      k ≤ countRun p s := by
  intro s
  induction s with
  | nil =>
    intro k hk _
    have : k = 0 := by simpa using hk
    simp [this]
  | cons a t ih =>
    intro k hk hall
    cases k with
    | zero => exact Nat.zero_le _
    | succ k =>
      have hpa : p a = true := hall a (by simp [List.take_succ_cons])
      simp only [countRun, if_pos hpa]
      have : k ≤ countRun p t := by
        apply ih k (by simpa using hk)
        intro c hc
        exact hall c (by simp [List.take_succ_cons, hc])
      omega

theorem advPrev_cons (prev : Option Char) (c : Char) (l : List Char) :
    advPrev prev (c :: l) = advPrev (some c) l := by
  cases l with
  | nil => rfl
  | cons d t =>
    simp only [advPrev, List.getLast?_cons_cons]
    cases hlast : (d :: t).getLast? with
    | none =>
      exact absurd (List.getLast?_eq_none_iff.mp hlast) (by simp)
    | some x => rfl

theorem advPrev_nil (prev : Option Char) : advPrev prev [] = prev := rfl

theorem advPrev_ne_nil (prev : Option Char) (l : List Char) (h : l ≠ []) :
    advPrev prev l = l.getLast? := by
  cases l with
  | nil => exact absurd rfl h
  | cons c t =>
    simp only [advPrev]
    cases hlast : (c :: t).getLast? with
    | none =>
      exact absurd (List.getLast?_eq_none_iff.mp hlast) (by simp)
    | some x => rfl

theorem tryCls_sound (s : List Char) (prev : Option Char) (lo : Nat)
    (cont : Option Char → List Char → Option Nat) :
    ∀ (k r : Nat), lo ≤ k → tryCls s prev lo cont k = some r →
      ∃ j m, lo ≤ j ∧ j ≤ k ∧ cont (advPrev prev (s.take j)) (s.drop j) = some m ∧ r = j + m := by
  intro k
  induction k with
  | zero =>
    intro r hlok h
    simp only [tryCls] at h
    split at h
    next hlo0 =>
      exact ⟨0, r, by omega, Nat.le_refl 0, by simpa [advPrev] using h, by omega⟩
    next => exact absurd h (by simp)
  | succ k ih =>
    intro r hlok h
    simp only [tryCls] at h
    split at h
    next n heq =>
      simp only [Option.some.injEq] at h
      exact ⟨k + 1, n, hlok, Nat.le_refl _, heq, by omega⟩
    next heq =>
      split at h
      next => exact absurd h (by simp)
      next hne =>
        have hlok2 : lo ≤ k := by omega
        rcases ih r hlok2 h with ⟨j, m, h1, h2, h3, h4⟩
        exact ⟨j, m, h1, by omega, h3, h4⟩

theorem tryCls_complete (s : List Char) (prev : Option Char) (lo : Nat)
    (cont : Option Char → List Char → Option Nat) :
    ∀ (k j m : Nat), lo ≤ j → j ≤ k →
      cont (advPrev prev (s.take j)) (s.drop j) = some m →
      (tryCls s prev lo cont k).isSome = true := by
  intro k
  induction k with
  | zero =>
    intro j m hlo hjk hc
    have hj : j = 0 := Nat.le_zero.mp hjk
    subst hj
    have hlo0 : lo = 0 := Nat.le_zero.mp hlo
    simp only [tryCls, if_pos hlo0]
    simp only [List.take_zero, List.drop_zero, advPrev_nil] at hc
    simp [hc]
  | succ k ih =>
    intro j m hlo hjk hc
    simp only [tryCls]
    split
    · simp
    next heq =>
      rcases Nat.lt_or_ge j (k + 1) with hjlt | hjge
      · have hjk2 : j ≤ k := by omega
        split
        next hloeq => omega
        · exact ih j m hlo hjk2 hc
      · have hj : j = k + 1 := by omega
        subst hj
        rw [hc] at heq
        exact absurd heq (by simp)

theorem matchSeq_sound :
    ∀ (pat : List RElem) (prev : Option Char) (s : List Char) (n : Nat),
      matchSeq pat prev s = some n → MSeq pat prev s n := by
  intro pat
  induction pat with
  | nil =>
    intro prev s n h
    simp only [matchSeq, Option.some.injEq] at h
    rw [← h]
    exact MSeq.nil prev s
  | cons e rest ih =>
    intro prev s n h
    cases e with
    | wordB =>
      simp only [matchSeq] at h
      split at h
      next hb => exact MSeq.wordB hb (ih prev s n h)
      · exact absurd h (by simp)
    | cls p lo hi =>
      cases hi with
      | none =>
        simp only [matchSeq] at h
        split at h
        next => exact absurd h (by simp)
        next htop =>
          have hlotop : lo ≤ countRun p s := Nat.le_of_not_lt htop
          rcases tryCls_sound s prev lo _ _ n hlotop h with ⟨j, m, h1, h2, h3, h4⟩
          have hjlen : j ≤ s.length := Nat.le_trans h2 (countRun_le_length p s)
          have hall : ∀ c ∈ s.take j, p c = true := by
            intro c hc
            apply take_countRun_sat p s
            have heq : s.take j = (s.take (countRun p s)).take j := by
              rw [List.take_take, Nat.min_eq_left h2]
            rw [heq] at hc
            exact List.mem_of_mem_take hc
          rw [h4]
          exact MSeq.cls hjlen hall h1 (fun m2 hm2 => Option.noConfusion hm2)
            (ih _ _ m h3)
      | some mm =>
        simp only [matchSeq] at h
        split at h
        next => exact absurd h (by simp)
        next htop =>
          have hlotop : lo ≤ min (countRun p s) mm := Nat.le_of_not_lt htop
          rcases tryCls_sound s prev lo _ _ n hlotop h with ⟨j, m, h1, h2, h3, h4⟩
          have hjrun : j ≤ countRun p s := Nat.le_trans h2 (Nat.min_le_left _ _)
          have hjlen : j ≤ s.length := Nat.le_trans hjrun (countRun_le_length p s)
          have hall : ∀ c ∈ s.take j, p c = true := by
            intro c hc
            apply take_countRun_sat p s
            have heq : s.take j = (s.take (countRun p s)).take j := by
              rw [List.take_take, Nat.min_eq_left hjrun]
            rw [heq] at hc
            exact List.mem_of_mem_take hc
          have hhi : ∀ m2, some mm = some m2 → j ≤ m2 := by
            intro m2 hm2
            cases hm2
            exact Nat.le_trans h2 (Nat.min_le_right _ _)
          rw [h4]
          exact MSeq.cls hjlen hall h1 hhi (ih _ _ m h3)

theorem matchSeq_complete :
    ∀ (pat : List RElem) (prev : Option Char) (s : List Char) (n : Nat),
      MSeq pat prev s n → (matchSeq pat prev s).isSome = true := by
  intro pat
  induction pat with
  | nil => intro prev s n _; simp [matchSeq]
  | cons e rest ih =>
    intro prev s n h
    cases e with
    | wordB =>
      cases h with
      | wordB hb h2 =>
        simp only [matchSeq, if_pos hb]
        exact ih prev s _ h2
    | cls p lo hi =>
      cases h with
      | cls hk hall hlo hhi h2 =>
        rename_i k m
        have hkrun : k ≤ countRun p s := le_countRun_of_take p s k hk hall
        cases hi with
        | none =>
          simp only [matchSeq]
          split
          next htop =>
            exact absurd htop (Nat.not_lt.mpr (Nat.le_trans hlo hkrun))
          next htop =>
            have hsome := ih _ _ _ h2
            rcases Option.isSome_iff_exists.mp hsome with ⟨m2, hm2⟩
            exact tryCls_complete s prev lo _ _ k m2 hlo hkrun hm2
        | some mm =>
          have hktop : k ≤ min (countRun p s) mm :=
            Nat.le_min.mpr ⟨hkrun, hhi mm rfl⟩
          simp only [matchSeq]
          split
          next htop =>
            exact absurd htop (Nat.not_lt.mpr (Nat.le_trans hlo hktop))
          next htop =>
            have hsome := ih _ _ _ h2
            rcases Option.isSome_iff_exists.mp hsome with ⟨m2, hm2⟩
            exact tryCls_complete s prev lo _ _ k m2 hlo hktop hm2

/-- A match never consumes more characters than the string has. -/
theorem MSeq_le_length {pat : List RElem} {prev : Option Char} {s : List Char} {n : Nat}
    (h : MSeq pat prev s n) : n ≤ s.length := by
  induction h with
  | nil => exact Nat.zero_le _
  | wordB _ _ ih => exact ih
  | cls hk _ _ _ _ ih =>
    rw [List.length_drop] at ih
    omega

/-! ## Behaviour of the substitution scan -/

theorem subScanF_irrel (pat : List RElem) (repl : List Char) :
    ∀ (b1 b2 : Nat) (prev : Option Char) (s : List Char),
      s.length < b1 → s.length < b2 →
      subScanF pat repl b1 prev s = subScanF pat repl b2 prev s := by
  intro b1
  induction b1 with
  | zero => intro b2 prev s h1 _; exact absurd h1 (Nat.not_lt_zero _)
  | succ b1 ih =>
    intro b2 prev s h1 h2
    cases b2 with
    | zero => exact absurd h2 (Nat.not_lt_zero _)
    | succ b2 =>
      cases s with
      | nil => rfl
      | cons c t =>
        simp only [List.length_cons] at h1 h2
        cases hm : matchSeq pat prev (c :: t) with
        | none =>
          simp only [subScanF, hm]
          rw [ih b2 (some c) t (by omega) (by omega)]
        | some n =>
          cases n with
          | zero =>
            simp only [subScanF, hm]
            rw [ih b2 (some c) t (by omega) (by omega)]
          | succ n =>
            simp only [subScanF, hm]
            have hlen : ((c :: t).drop (n + 1)).length < b1 := by
              rw [List.length_drop, List.length_cons]
              omega
            have hlen2 : ((c :: t).drop (n + 1)).length < b2 := by
              rw [List.length_drop, List.length_cons]
              omega
            rw [ih b2 _ _ hlen hlen2]

theorem subScan_nil (pat : List RElem) (repl : List Char) (prev : Option Char) :
    subScan pat repl prev [] =
      (match matchSeq pat prev [] with
       | some _ => repl
       | none => []) := rfl

theorem subScan_cons (pat : List RElem) (repl : List Char) (prev : Option Char)
    (c : Char) (t : List Char) :
    subScan pat repl prev (c :: t) =
      (match matchSeq pat prev (c :: t) with
       | none => c :: subScan pat repl (some c) t
       | some 0 => repl ++ c :: subScan pat repl (some c) t
       | some (n + 1) =>
         repl ++ subScan pat repl (advPrev prev ((c :: t).take (n + 1)))
           ((c :: t).drop (n + 1))) := by
  show subScanF pat repl ((c :: t).length + 1) prev (c :: t) = _
  simp only [List.length_cons]
  cases hm : matchSeq pat prev (c :: t) with
  | none => simp only [subScanF, hm]; rfl
  | some n =>
    cases n with
    | zero => simp only [subScanF, hm]; rfl
    | succ n =>
      simp only [subScanF, hm]
      have hlt : ((c :: t).drop (n + 1)).length < t.length + 1 := by
        rw [List.length_drop, List.length_cons]
        omega
      exact congrArg (repl ++ ·)
        (subScanF_irrel pat repl (t.length + 1) (((c :: t).drop (n + 1)).length + 1) _ _
          hlt (Nat.lt_succ_self _))

theorem subScan_id_of_no_match (pat : List RElem) (repl : List Char) :
    ∀ (s : List Char) (prev : Option Char),
      hasMatchB pat prev s = false → subScan pat repl prev s = s := by
  intro s
  induction s with
  | nil =>
    intro prev h
    rw [subScan_nil]
    cases hm : matchSeq pat prev [] with
    | none => rfl
    | some n =>
      simp only [hasMatchB, hm, Option.isSome_some] at h
      exact absurd h (by simp)
  | cons c t ih =>
    intro prev h
    simp only [hasMatchB, Bool.or_eq_false_iff] at h
    rw [subScan_cons]
    cases hm : matchSeq pat prev (c :: t) with
    | none => rw [ih (some c) h.2]
    | some n =>
      rw [hm] at h
      simp only [Option.isSome_some] at h
      exact absurd h.1 (by simp)

theorem startsWithL_append_self :
    ∀ (l z : List Char), startsWithL l (l ++ z) = true := by
  intro l
  induction l with
  | nil => intro z; rfl
  | cons c t ih =>
    intro z
    rw [List.cons_append]
    simp only [startsWithL]
    rw [ih z]
    simp

/-- When the pattern matches somewhere and no match is empty, the scan
output differs from the input provided no match can begin with the
replacement's first character. -/
theorem subScan_ne_of_match (pat : List RElem) (rhead : Char) (rtail : List Char)
    (hne : ∀ (prev : Option Char) (s : List Char), matchSeq pat prev s ≠ some 0)
    (hstart : ∀ (prev : Option Char) (c : Char) (t : List Char) (n : Nat),
      matchSeq pat prev (c :: t) = some n → c ≠ rhead) :
    ∀ (s : List Char) (prev : Option Char),
      hasMatchB pat prev s = true → subScan pat (rhead :: rtail) prev s ≠ s := by
  intro s
  induction s with
  | nil =>
    intro prev h
    simp only [hasMatchB] at h
    rcases Option.isSome_iff_exists.mp h with ⟨n, hn⟩
    have := MSeq_le_length (matchSeq_sound pat prev [] n hn)
    simp at this
    rw [this] at hn
    exact absurd hn (hne prev [])
  | cons c t ih =>
    intro prev h
    rw [subScan_cons]
    cases hm : matchSeq pat prev (c :: t) with
    | none =>
      simp only [hasMatchB, hm, Option.isSome_none, Bool.false_or] at h
      intro hcontra
      exact ih (some c) h (List.cons.inj hcontra).2
    | some n =>
      cases n with
      | zero => exact absurd hm (hne prev (c :: t))
      | succ n =>
        intro hcontra
        rw [List.cons_append] at hcontra
        exact hstart prev c t (n + 1) hm (List.cons.inj hcontra).1.symm

/-- When the pattern matches somewhere and no match is empty, the
replacement string occurs in the scan output. -/
theorem sentinel_in_subScan (pat : List RElem) (rhead : Char) (rtail : List Char)
    (hne : ∀ (prev : Option Char) (s : List Char), matchSeq pat prev s ≠ some 0) :
    ∀ (s : List Char) (prev : Option Char),
      hasMatchB pat prev s = true →
      containsSub (rhead :: rtail) (subScan pat (rhead :: rtail) prev s) = true := by
  intro s
  induction s with
  | nil =>
    intro prev h
    simp only [hasMatchB] at h
    rcases Option.isSome_iff_exists.mp h with ⟨n, hn⟩
    have := MSeq_le_length (matchSeq_sound pat prev [] n hn)
    simp at this
    rw [this] at hn
    exact absurd hn (hne prev [])
  | cons c t ih =>
    intro prev h
    rw [subScan_cons]
    cases hm : matchSeq pat prev (c :: t) with
    | none =>
      simp only [hasMatchB, hm, Option.isSome_none, Bool.false_or] at h
      simp only [containsSub, ih (some c) h, Bool.or_true]
    | some n =>
      cases n with
      | zero => exact absurd hm (hne prev (c :: t))
      | succ n =>
        have hsw := startsWithL_append_self (rhead :: rtail)
          (subScan pat (rhead :: rtail) (advPrev prev ((c :: t).take (n + 1)))
            ((c :: t).drop (n + 1)))
        rw [List.cons_append] at hsw
        simp only [List.cons_append, containsSub, List.append_eq]
        rw [hsw]
        simp

/-- Any email-pattern match is nonempty and begins with a local-part
character. -/
theorem email_match_shape {prev : Option Char} {s : List Char} {n : Nat}
    (h : MSeq emailPat prev s n) :
    1 ≤ n ∧ ∃ c t, s = c :: t ∧ isLocalChar c = true := by
  have h0 : MSeq [RElem.wordB,
      RElem.cls isLocalChar 1 none,
      RElem.cls (fun c => c = '@') 1 (some 1),
      RElem.cls isDomChar 1 none,
      RElem.cls (fun c => c = '.') 1 (some 1),
      RElem.cls isAsciiAlpha 2 none,
      RElem.wordB] prev s n := h
  cases h0 with
  | wordB hb h1 =>
    cases h1 with
    | cls hk hall hlo hhi h2 =>
      rename_i k n1
      constructor
      · omega
      · cases s with
        | nil => simp at hk; omega
        | cons c t =>
          refine ⟨c, t, rfl, ?_⟩
          apply hall
          cases k with
          | zero => omega
          | succ k => simp [List.take_succ_cons]

/-- Any phone-pattern match spans at least nine characters and begins
with a plus sign or a digit. -/
theorem phone_match_shape {prev : Option Char} {s : List Char} {n : Nat}
    (h : MSeq phonePat prev s n) :
    9 ≤ n ∧ ∃ c t, s = c :: t ∧ (c = '+' ∨ isAsciiDigit c = true) := by
  have h0 : MSeq [RElem.wordB,
      RElem.cls (fun c => c = '+') 0 (some 1),
      RElem.cls isAsciiDigit 1 (some 1),
      RElem.cls isPhoneMidChar 7 none,
      RElem.cls isAsciiDigit 1 (some 1),
      RElem.wordB] prev s n := h
  cases h0 with
  | wordB hb h1 =>
    cases h1 with
    | cls hk0 hall0 hlo0 hhi0 h2 =>
      rename_i k0 n1
      cases h2 with
      | cls hk1 hall1 hlo1 hhi1 h3 =>
        rename_i k1 n2
        cases h3 with
        | cls hk2 hall2 hlo2 hhi2 h4 =>
          rename_i k2 n3
          cases h4 with
          | cls hk3 hall3 hlo3 hhi3 h5 =>
            rename_i k3 n4
            cases h5 with
            | wordB hb2 h6 =>
              cases h6
              have hk0le : k0 ≤ 1 := hhi0 1 rfl
              constructor
              · omega
              · cases hk0case : k0 with
                | zero =>
                  subst hk0case
                  rw [List.drop_zero] at hall1 hk1
                  cases s with
                  | nil => simp at hk1; omega
                  | cons c t =>
                    refine ⟨c, t, rfl, Or.inr ?_⟩
                    apply hall1
                    cases hk1case : k1 with
                    | zero => omega
                    | succ m => simp [List.take_succ_cons]
                | succ m =>
                  have hk0one : k0 = 1 := by omega
                  cases s with
                  | nil => simp at hk0; omega
                  | cons c t =>
                    refine ⟨c, t, rfl, Or.inl ?_⟩
                    have : c ∈ (c :: t).take k0 := by
                      rw [hk0one]
                      simp [List.take_succ_cons]
                    have := hall0 c this
                    simpa using this

theorem email_hne :
    ∀ (prev : Option Char) (s : List Char), matchSeq emailPat prev s ≠ some 0 := by
  intro prev s h
  have := (email_match_shape (matchSeq_sound _ _ _ _ h)).1
  omega

theorem email_hstart :
    ∀ (prev : Option Char) (c : Char) (t : List Char) (n : Nat),
      matchSeq emailPat prev (c :: t) = some n → c ≠ '[' := by
  intro prev c t n h
  rcases (email_match_shape (matchSeq_sound _ _ _ _ h)).2 with ⟨c2, t2, heq, hc2⟩
  cases heq
  intro hbr
  rw [hbr] at hc2
  exact absurd hc2 (by decide)

theorem phone_hne :
    ∀ (prev : Option Char) (s : List Char), matchSeq phonePat prev s ≠ some 0 := by
  intro prev s h
  have := (phone_match_shape (matchSeq_sound _ _ _ _ h)).1
  omega

theorem phone_hstart :
    ∀ (prev : Option Char) (c : Char) (t : List Char) (n : Nat),
      matchSeq phonePat prev (c :: t) = some n → c ≠ '[' := by
  intro prev c t n h
  rcases (phone_match_shape (matchSeq_sound _ _ _ _ h)).2 with ⟨c2, t2, heq, hc2⟩
  cases heq
  intro hbr
  rw [hbr] at hc2
  rcases hc2 with h1 | h1
  · exact absurd h1 (by decide)
  · exact absurd h1 (by decide)

/-- A successful match after any prefix makes the whole-string scan
predicate true. -/
theorem hasMatchB_append (pat : List RElem) :
    ∀ (pre rest : List Char) (prev : Option Char),
      (matchSeq pat (advPrev prev pre) rest).isSome = true →
      hasMatchB pat prev (pre ++ rest) = true := by
  intro pre
  induction pre with
  | nil =>
    intro rest prev h
    rw [advPrev_nil] at h
    cases rest with
    | nil => simpa [hasMatchB] using h
    | cons c t => simp [hasMatchB, h]
  | cons c pre ih =>
    intro rest prev h
    rw [advPrev_cons] at h
    rw [List.cons_append]
    simp only [hasMatchB, Bool.or_eq_true]
    exact Or.inr (ih rest (some c) h)

/-! ## Building matches from declarative occurrences -/

theorem MSeq_cls_chunk (p : Char → Bool) (lo : Nat) (hi : Option Nat)
    (rest : List RElem) (prev : Option Char) (l1 l2 : List Char) (n : Nat)
    (hall : ∀ c ∈ l1, p c = true) (hlo : lo ≤ l1.length)
    (hhi : ∀ m, hi = some m → l1.length ≤ m)
    (h : MSeq rest (advPrev prev l1) l2 n) :
    MSeq (RElem.cls p lo hi :: rest) prev (l1 ++ l2) (l1.length + n) := by
  have hk : l1.length ≤ (l1 ++ l2).length := by simp
  have hall2 : ∀ c ∈ (l1 ++ l2).take l1.length, p c = true := by
    rw [List.take_left]
    exact hall
  have h2 : MSeq rest (advPrev prev ((l1 ++ l2).take l1.length))
      ((l1 ++ l2).drop l1.length) n := by
    rw [List.take_left, List.drop_left]
    exact h
  exact MSeq.cls hk hall2 hlo hhi h2

theorem head?_append_of_ne_nil (l r : List Char) (h : l ≠ []) :
    (l ++ r).head? = l.head? := by
  cases l with
  | nil => exact absurd rfl h
  | cons c t => rfl

theorem word_of_digit {c : Char} (h : isAsciiDigit c = true) : isWordChar c = true := by
  simp [isWordChar, h]

theorem mid_of_digit {c : Char} (h : isAsciiDigit c = true) : isPhoneMidChar c = true := by
  simp [isPhoneMidChar, h]

/-- A word-bounded email-shaped occurrence gives a match of the email
pattern at its position. -/
theorem email_occ_match (prev : Option Char) (loc dom tld post : List Char)
    (hloc : loc ≠ []) (hlocall : ∀ c ∈ loc, isLocalChar c = true)
    (hdom : dom ≠ []) (hdomall : ∀ c ∈ dom, isDomChar c = true)
    (htld2 : 2 ≤ tld.length) (htldall : ∀ c ∈ tld, isAsciiAlpha c = true)
    (hb1 : isBoundary prev loc.head? = true)
    (hb2 : isBoundary tld.getLast? post.head? = true) :
    ∃ n, MSeq emailPat prev (loc ++ '@' :: (dom ++ '.' :: (tld ++ post))) n := by
  have htld : tld ≠ [] := by
    intro h
    rw [h] at htld2
    simp at htld2
  refine ⟨loc.length + (1 + (dom.length + (1 + (tld.length + 0)))), ?_⟩
  apply MSeq.wordB
  · rw [head?_append_of_ne_nil loc _ hloc]
    exact hb1
  apply MSeq_cls_chunk isLocalChar 1 none _ prev loc _ _ hlocall
    (by cases loc with | nil => exact absurd rfl hloc | cons a b => simp)
    (fun m hm => Option.noConfusion hm)
  show MSeq _ _ (['@'] ++ (dom ++ '.' :: (tld ++ post))) (List.length ['@'] + _)
  apply MSeq_cls_chunk (fun c => c = '@') 1 (some 1) _ _ (['@']) _ _
    (by intro c hc; simp at hc; simp [hc])
    (by simp)
    (by intro m hm; cases hm; simp)
  apply MSeq_cls_chunk isDomChar 1 none _ _ dom _ _ hdomall
    (by cases dom with | nil => exact absurd rfl hdom | cons a b => simp)
    (fun m hm => Option.noConfusion hm)
  show MSeq _ _ (['.'] ++ (tld ++ post)) (List.length ['.'] + _)
  apply MSeq_cls_chunk (fun c => c = '.') 1 (some 1) _ _ (['.']) _ _
    (by intro c hc; simp at hc; simp [hc])
    (by simp)
    (by intro m hm; cases hm; simp)
  apply MSeq_cls_chunk isAsciiAlpha 2 none _ _ tld post _ htldall htld2
    (fun m hm => Option.noConfusion hm)
  apply MSeq.wordB
  · rw [advPrev_ne_nil _ tld htld]
    exact hb2
  exact MSeq.nil _ _

/-- A word-bounded run of exactly nine digits gives a match of the phone
pattern at its position. -/
theorem phone_run_match (prev : Option Char) (d1 d2 d3 d4 d5 d6 d7 d8 d9 : Char)
    (post : List Char)
    (h1 : isAsciiDigit d1 = true) (h2 : isAsciiDigit d2 = true)
    (h3 : isAsciiDigit d3 = true) (h4 : isAsciiDigit d4 = true)
    (h5 : isAsciiDigit d5 = true) (h6 : isAsciiDigit d6 = true)
    (h7 : isAsciiDigit d7 = true) (h8 : isAsciiDigit d8 = true)
    (h9 : isAsciiDigit d9 = true)
    (hprev : wordOpt prev = false) (hpost : wordOpt post.head? = false) :
    ∃ n, MSeq phonePat prev
      (d1 :: d2 :: d3 :: d4 :: d5 :: d6 :: d7 :: d8 :: d9 :: post) n := by
  refine ⟨0 + (1 + (7 + (1 + 0))), ?_⟩
  apply MSeq.wordB
  · simp only [List.head?_cons, isBoundary, hprev]
    rw [wordOpt, word_of_digit h1]
    rfl
  show MSeq _ _ (([] : List Char) ++ (d1 :: d2 :: d3 :: d4 :: d5 :: d6 :: d7 :: d8 :: d9 :: post))
    (List.length ([] : List Char) + _)
  apply MSeq_cls_chunk (fun c => c = '+') 0 (some 1) _ _ ([]) _ _
    (by intro c hc; simp at hc)
    (by simp)
    (by intro m hm; cases hm; simp)
  show MSeq _ _ ([d1] ++ (d2 :: d3 :: d4 :: d5 :: d6 :: d7 :: d8 :: d9 :: post))
    (List.length [d1] + _)
  apply MSeq_cls_chunk isAsciiDigit 1 (some 1) _ _ ([d1]) _ _
    (by intro c hc; simp at hc; rw [hc]; exact h1)
    (by simp)
    (by intro m hm; cases hm; simp)
  show MSeq _ _ ([d2, d3, d4, d5, d6, d7, d8] ++ (d9 :: post))
    (List.length [d2, d3, d4, d5, d6, d7, d8] + _)
  apply MSeq_cls_chunk isPhoneMidChar 7 none _ _ ([d2, d3, d4, d5, d6, d7, d8]) _ _
    (by
      intro c hc
      simp only [List.mem_cons, List.not_mem_nil, or_false] at hc
      rcases hc with rfl | rfl | rfl | rfl | rfl | rfl | rfl
      · exact mid_of_digit h2
      · exact mid_of_digit h3
      · exact mid_of_digit h4
      · exact mid_of_digit h5
      · exact mid_of_digit h6
      · exact mid_of_digit h7
      · exact mid_of_digit h8)
    (by simp)
    (fun m hm => Option.noConfusion hm)
  show MSeq _ _ ([d9] ++ post) (List.length [d9] + _)
  apply MSeq_cls_chunk isAsciiDigit 1 (some 1) _ _ ([d9]) _ _
    (by intro c hc; simp at hc; rw [hc]; exact h9)
    (by simp)
    (by intro m hm; cases hm; simp)
  apply MSeq.wordB
  · rw [advPrev_ne_nil _ [d9] (by simp)]
    simp only [List.getLast?_singleton, isBoundary]
    rw [wordOpt, word_of_digit h9, hpost]
    rfl
  exact MSeq.nil _ _

/-! ## Redaction-level consequences -/

theorem redactEmail_id_of_no_match (text : String)
    (h : hasMatchB emailPat none text.data = false) : redactEmail text = text := by
  show String.mk (subScan emailPat emailSentinel.data none text.data) = text
  rw [subScan_id_of_no_match emailPat emailSentinel.data text.data none h]

theorem redactPhone_id_of_no_match (text : String)
    (h : hasMatchB phonePat none text.data = false) : redactPhone text = text := by
  show String.mk (subScan phonePat phoneSentinel.data none text.data) = text
  rw [subScan_id_of_no_match phonePat phoneSentinel.data text.data none h]

theorem redactEmail_ne_of_match (text : String)
    (h : hasMatchB emailPat none text.data = true) : redactEmail text ≠ text := by
  intro hcontra
  have hdata : subScan emailPat ('[' :: "REDACTED_EMAIL]".data) none text.data = text.data :=
    congrArg String.data hcontra
  exact subScan_ne_of_match emailPat '[' "REDACTED_EMAIL]".data email_hne email_hstart
    text.data none h hdata

theorem redactPhone_ne_of_match (text : String)
    (h : hasMatchB phonePat none text.data = true) : redactPhone text ≠ text := by
  intro hcontra
  have hdata : subScan phonePat ('[' :: "REDACTED_PHONE]".data) none text.data = text.data :=
    congrArg String.data hcontra
  exact subScan_ne_of_match phonePat '[' "REDACTED_PHONE]".data phone_hne phone_hstart
    text.data none h hdata

theorem phoneSentinel_in_redactPhone (text : String)
    (h : hasMatchB phonePat none text.data = true) :
    containsSub phoneSentinel.data (redactPhone text).data = true := by
  show containsSub ('[' :: "REDACTED_PHONE]".data)
    (subScan phonePat ('[' :: "REDACTED_PHONE]".data) none text.data) = true
  exact sentinel_in_subScan phonePat '[' "REDACTED_PHONE]".data phone_hne text.data none h

theorem emailSentinel_in_redactEmail (text : String)
    (h : hasMatchB emailPat none text.data = true) :
    containsSub emailSentinel.data (redactEmail text).data = true := by
  show containsSub ('[' :: "REDACTED_EMAIL]".data)
    (subScan emailPat ('[' :: "REDACTED_EMAIL]".data) none text.data) = true
  exact sentinel_in_subScan emailPat '[' "REDACTED_EMAIL]".data email_hne text.data none h

theorem applyRedactionL_email_only (text : String) :
    applyRedactionL text ["email"] =
      (redactEmail text, [("email", if text = redactEmail text then 0 else 1)]) := rfl

theorem applyRedactionL_phone_only (text : String) :
    applyRedactionL text ["phone"] =
      (redactPhone text, [("phone", if text = redactPhone text then 0 else 1)]) := rfl

theorem applyRedactionL_both (text : String) :
    applyRedactionL text ["email", "phone"] =
      (redactPhone (redactEmail text),
       [("email", if text = redactEmail text then 0 else 1),
        ("phone", if redactEmail text = redactPhone (redactEmail text) then 0 else 1)]) := rfl

/-! ## Handler helper lemmas -/

theorem applyRedactionJ_error_typeErr (text : String) (redact : Json) (e : PyExc)
    (h : applyRedactionJ text redact = Except.error e) : e = PyExc.typeErr := by
  simp only [applyRedactionJ] at h
  split at h
  · injection h with h
    exact h.symm
  · split at h
    · injection h with h
      exact h.symm
    · split at h
      · simp at h
      · simp at h

theorem writeAudit_error_sinkErr (env : Env) (rid hash : String)
    (counts : List (String × Nat)) (e : PyExc)
    (h : writeAudit env rid hash counts = Except.error e) : e = PyExc.sinkErr := by
  simp only [writeAudit] at h
  split at h
  · simp at h
  · split at h
    · simp at h
    · injection h with h
      exact h.symm

theorem writeAudit_writes (env : Env) (rid hash : String)
    (counts : List (String × Nat)) (b : Bool) (items : List AuditItem)
    (h : writeAudit env rid hash counts = Except.ok (b, items)) :
    ∀ it ∈ items, it.cvHash = hash := by
  simp only [writeAudit] at h
  split at h
  · injection h with h
    injection h with hb hitems
    rw [← hitems]
    intro it hit
    simp at hit
  · split at h
    · injection h with h
      injection h with hb hitems
      rw [← hitems]
      intro it hit
      simp only [List.mem_singleton] at hit
      rw [hit]
    · simp at h

/-- Outside the blank-text branch the handler never raises an
HTTPException: its other failures are uncaught exceptions. -/
theorem anonymise_no_http_of_nonblank (env : Env) (st : CacheSt) (text : String)
    (h : pyStrip text ≠ "") :
    ∀ (s : Nat) (d : String),
      (anonymise env st text).result ≠ Except.error (PyExc.httpEx s d) := by
  intro s d
  simp only [anonymise]
  rw [if_neg h]
  split
  split
  next e happ =>
    intro hcontra
    have he : Except.error e = Except.error (PyExc.httpEx s d) := hcontra
    injection he with he
    rw [applyRedactionJ_error_typeErr _ _ _ happ] at he
    exact PyExc.noConfusion he
  next anonymised counts happ =>
    split
    next salt hsalt =>
      split
      next e hw =>
        intro hcontra
        have he : Except.error e = Except.error (PyExc.httpEx s d) := hcontra
        injection he with he
        rw [writeAudit_error_sinkErr _ _ _ _ _ hw] at he
        exact PyExc.noConfusion he
      next b items hw =>
        intro hcontra
        exact Except.noConfusion hcontra
    next hsalt =>
      intro hcontra
      injection hcontra with he
      exact PyExc.noConfusion he
  next hrules =>
    intro hcontra
    injection hcontra with he
    exact PyExc.noConfusion he

/-! ## Claim C10 -/

/-- C10: when the request text is blank after trimming, the handler raises
HTTP 400 before loading rules, generating a requestId, hashing or writing
audit: the cache slot is returned unchanged, no audit row is written and
no rules fetch happens. -/
theorem c10_blank_text_leaves_state_unchanged (env : Env) (st : CacheSt)
    (text : String) (h : pyStrip text = "") :
    anonymise env st text =
      ⟨Except.error (PyExc.httpEx 400 "text is required"), st, [], false⟩ := by
  unfold anonymise
  rw [h]
  rfl

theorem c10_blank_text_witness :
    anonymise ⟨"audit", "fb", Except.error (), fun _ => Except.ok (), 7, "u"⟩
        ⟨some (Json.obj [("x", Json.null)]), 3⟩ " \t " =
      ⟨Except.error (PyExc.httpEx 400 "text is required"),
        ⟨some (Json.obj [("x", Json.null)]), 3⟩, [], false⟩ :=
  c10_blank_text_leaves_state_unchanged _ _ " \t " (by decide)

/-! ## Claim C2 -/

/-- C2 counterexample: a POST body with the text field missing is rejected
by the framework's request validation with HTTP 422, not HTTP 400 as the
claim states. -/
theorem c2_missing_text_gives_422_not_400 :
    statusOf (anonymiseEndpoint
        ⟨"", "fb", Except.error (), fun _ => Except.ok (), 0, "u"⟩
        ⟨none, 0⟩ none).1 = 422 ∧
    ¬ statusOf (anonymiseEndpoint
        ⟨"", "fb", Except.error (), fun _ => Except.ok (), 0, "u"⟩
        ⟨none, 0⟩ none).1 = 400 := by
  constructor
  · rfl
  · decide

/-- C2 amended: a missing text field fails framework validation with HTTP
422; a present text that is blank after trimming fails with HTTP 400 and
the fixed generic detail (which never echoes the input); a non-blank text
never produces a validation status (neither 400 nor 422). -/
theorem c2_validation_behaviour (env : Env) (st : CacheSt) :
    (anonymiseEndpoint env st none).1 = HttpOut.validationErr ∧
    (∀ text : String, pyStrip text = "" →
      (anonymiseEndpoint env st (some text)).1 =
        HttpOut.clientErr 400 "text is required") ∧
    (∀ text : String, pyStrip text ≠ "" →
      statusOf (anonymiseEndpoint env st (some text)).1 ≠ 400 ∧
      statusOf (anonymiseEndpoint env st (some text)).1 ≠ 422) := by
  refine ⟨rfl, ?_, ?_⟩
  · intro text h
    simp only [anonymiseEndpoint]
    rw [c10_blank_text_leaves_state_unchanged env st text h]
  · intro text h
    simp only [anonymiseEndpoint]
    cases hres : (anonymise env st text).result with
    | ok r => exact ⟨by simp [statusOf], by simp [statusOf]⟩
    | error e =>
      cases e with
      | httpEx s d =>
        exact absurd hres (anonymise_no_http_of_nonblank env st text h s d)
      | typeErr => exact ⟨by simp [statusOf], by simp [statusOf]⟩
      | sinkErr => exact ⟨by simp [statusOf], by simp [statusOf]⟩

theorem c2_validation_witness :
    (anonymiseEndpoint ⟨"", "fb", Except.error (), fun _ => Except.ok (), 0, "u"⟩
        ⟨none, 0⟩ (some "  ")).1 = HttpOut.clientErr 400 "text is required" :=
  (c2_validation_behaviour ⟨"", "fb", Except.error (), fun _ => Except.ok (), 0, "u"⟩
      ⟨none, 0⟩).2.1 "  " (by decide)

/-! ## Claim C7 -/

/-- C7 counterexample: a cached document stored one second ago is not
returned when it is an empty JSON object, because Python truthiness of the
empty dict fails the guard: the call fetches externally and returns the
fetched document instead. -/
theorem c7_empty_dict_cache_is_refetched :
    (loadRules ⟨"", "fb", Except.ok (Json.obj [("marker", Json.null)]),
        fun _ => Except.ok (), 101, "u"⟩ ⟨some (Json.obj []), 100⟩).2.2 = true ∧
    (loadRules ⟨"", "fb", Except.ok (Json.obj [("marker", Json.null)]),
        fun _ => Except.ok (), 101, "u"⟩ ⟨some (Json.obj []), 100⟩).1 ≠
      Json.obj [] := by
  constructor
  · rfl
  · decide

/-- C7 amended: a cached rules document stored less than 60 seconds before
the call is returned unchanged with no external fetch provided it is
truthy (a non-empty object); the falsy empty document instead triggers a
refetch. -/
theorem c7_fresh_truthy_cache_hit (env : Env) (st : CacheSt) (doc : Json)
    (hc : st.cache = some doc) (ht : jsonTruthy doc = true)
    (hfresh : env.now - st.loadedAt < 60) :
    loadRules env st = (doc, st, false) := by
  unfold loadRules
  rw [hc]
  simp [ht, hfresh]

theorem c7_fresh_truthy_cache_hit_witness :
    loadRules ⟨"", "fb", Except.ok Json.null, fun _ => Except.ok (), 130, "u"⟩
        ⟨some (Json.obj [("x", Json.num 1)]), 100⟩ =
      (Json.obj [("x", Json.num 1)], ⟨some (Json.obj [("x", Json.num 1)]), 100⟩, false) :=
  c7_fresh_truthy_cache_hit _ _ (Json.obj [("x", Json.num 1)]) rfl (by decide) (by decide)

/-! ## Claim C6 -/

/-- C6 counterexample: a fetched document of the wrong shape (redact not
an array of strings, salt not a string) is a JSON object, so _load_rules
returns it as-is instead of the fallback document the claim requires. -/
theorem c6_wrong_shape_object_not_replaced :
    (loadRules ⟨"", "fallback-salt",
        Except.ok (Json.obj [("redact", Json.num 5), ("salt", Json.num 7)]),
        fun _ => Except.ok (), 1000, "u"⟩ ⟨none, 0⟩).1 =
      Json.obj [("redact", Json.num 5), ("salt", Json.num 7)] ∧
    (loadRules ⟨"", "fallback-salt",
        Except.ok (Json.obj [("redact", Json.num 5), ("salt", Json.num 7)]),
        fun _ => Except.ok (), 1000, "u"⟩ ⟨none, 0⟩).1 ≠
      fallbackRules ⟨"", "fallback-salt",
        Except.ok (Json.obj [("redact", Json.num 5), ("salt", Json.num 7)]),
        fun _ => Except.ok (), 1000, "u"⟩ := by
  constructor
  · rfl
  · decide

/-- On a cache miss, _load_rules takes the fetch path and restamps the
cache with the fetch outcome. -/
theorem loadRules_miss (env : Env) (st : CacheSt)
    (hmiss : cacheFresh env st = false) :
    loadRules env st = (fetchOutcome env, ⟨some (fetchOutcome env), env.now⟩, true) := by
  unfold cacheFresh at hmiss
  unfold loadRules fetchOutcome
  cases hc : st.cache with
  | none => rfl
  | some doc =>
    rw [hc] at hmiss
    have hg : (jsonTruthy doc && decide (env.now - st.loadedAt < 60)) = false := hmiss
    simp [hg]

/-- C6 amended: on a cache miss the rules loader never raises; it replaces
a failed fetch (store error or malformed JSON) or a non-object JSON value
by the fallback document, but accepts any JSON object as-is regardless of
its field shapes; in every case the result is cached and the timestamp
reset to now. -/
theorem c6_load_rules_fallback (env : Env) (st : CacheSt)
    (hmiss : cacheFresh env st = false) :
    (loadRules env st).2.1 = ⟨some (loadRules env st).1, env.now⟩ ∧
    (loadRules env st).2.2 = true ∧
    (env.fetchRules = Except.error () → (loadRules env st).1 = fallbackRules env) ∧
    (∀ v, env.fetchRules = Except.ok v → jsonIsObj v = false →
      (loadRules env st).1 = fallbackRules env) ∧
    (∀ v, env.fetchRules = Except.ok v → jsonIsObj v = true →
      (loadRules env st).1 = v) := by
  rw [loadRules_miss env st hmiss]
  refine ⟨rfl, rfl, ?_, ?_, ?_⟩
  · intro hf
    unfold fetchOutcome
    rw [hf]
  · intro v hf hobj
    unfold fetchOutcome
    rw [hf]
    cases v with
    | obj fields => simp [jsonIsObj] at hobj
    | null => rfl
    | bool b => rfl
    | num n => rfl
    | str s => rfl
    | arr l => rfl
  · intro v hf hobj
    unfold fetchOutcome
    rw [hf]
    cases v with
    | obj fields => rfl
    | null => simp [jsonIsObj] at hobj
    | bool b => simp [jsonIsObj] at hobj
    | num n => simp [jsonIsObj] at hobj
    | str s => simp [jsonIsObj] at hobj
    | arr l => simp [jsonIsObj] at hobj

theorem c6_load_rules_fallback_witness :
    (loadRules ⟨"", "fb", Except.error (), fun _ => Except.ok (), 42, "u"⟩
        ⟨none, 0⟩).1 =
      fallbackRules ⟨"", "fb", Except.error (), fun _ => Except.ok (), 42, "u"⟩ :=
  (c6_load_rules_fallback ⟨"", "fb", Except.error (), fun _ => Except.ok (), 42, "u"⟩
      ⟨none, 0⟩ (by decide)).2.2.1 rfl

/-! ## Claim C1 -/

/-- C1: the claim fails on the code: _write_audit has no exception handler
around put_item, so with an audit sink configured whose write raises, the
exception propagates out of the handler and the request fails with HTTP
500 — no HTTP 200, no requestId.  Evaluated at the failing input
text "hello" with a configured table and a throwing sink. -/
theorem c1_audit_exception_propagates :
    (anonymise ⟨"cv-anonymiser-audit", "demo-salt-change-me", Except.error (),
        fun _ => Except.error (), 1700000000, "6f9619ff-8b86-d011-b42d-00c04fc964ff"⟩
        ⟨none, 0⟩ "hello").result = Except.error PyExc.sinkErr ∧
    statusOf (anonymiseEndpoint ⟨"cv-anonymiser-audit", "demo-salt-change-me",
        Except.error (), fun _ => Except.error (), 1700000000,
        "6f9619ff-8b86-d011-b42d-00c04fc964ff"⟩ ⟨none, 0⟩ (some "hello")).1 = 500 := by
  constructor
  · decide
  · decide

/-! ## Claim C4 -/

/-- C4 counterexample: a word-bounded run of exactly 8 digits is not
replaced by the phone rule — the pattern needs a digit, at least 7 middle
characters and a digit, hence at least 9 characters in all. -/
theorem c4_eight_digit_run_not_replaced :
    redactPhone "12345678" = "12345678" ∧
    applyRedactionL "Call 12345678" ["phone"] = ("Call 12345678", [("phone", 0)]) := by
  constructor
  · decide
  · decide

/-- C4 amended: the phone rule's tokens span at least NINE characters (an
optional leading plus, a digit, 7 or more of digits, spaces, parentheses,
dots and hyphens, and a final digit, word-bounded); every phone-pattern
match consumes at least 9 characters, and every word-bounded run of
exactly nine digits is matched: redaction changes the text and the
sentinel [REDACTED_PHONE] appears in the output.  A run of exactly 8
digits is not replaced (see the counterexample). -/
theorem c4_phone_token_needs_nine_chars :
    (∀ (prev : Option Char) (s : List Char) (n : Nat),
      matchSeq phonePat prev s = some n → 9 ≤ n) ∧
    (∀ (pre post : List Char) (d1 d2 d3 d4 d5 d6 d7 d8 d9 : Char),
      isAsciiDigit d1 = true → isAsciiDigit d2 = true → isAsciiDigit d3 = true →
      isAsciiDigit d4 = true → isAsciiDigit d5 = true → isAsciiDigit d6 = true →
      isAsciiDigit d7 = true → isAsciiDigit d8 = true → isAsciiDigit d9 = true →
      wordOpt (advPrev none pre) = false → wordOpt post.head? = false →
      redactPhone (String.mk (pre ++ d1 :: d2 :: d3 :: d4 :: d5 :: d6 :: d7 :: d8 :: d9 :: post)) ≠
        String.mk (pre ++ d1 :: d2 :: d3 :: d4 :: d5 :: d6 :: d7 :: d8 :: d9 :: post) ∧
      containsSub phoneSentinel.data
        (redactPhone (String.mk
          (pre ++ d1 :: d2 :: d3 :: d4 :: d5 :: d6 :: d7 :: d8 :: d9 :: post))).data = true) := by
  constructor
  · intro prev s n h
    exact (phone_match_shape (matchSeq_sound _ _ _ _ h)).1
  · intro pre post d1 d2 d3 d4 d5 d6 d7 d8 d9 h1 h2 h3 h4 h5 h6 h7 h8 h9 hprev hpost
    rcases phone_run_match (advPrev none pre) d1 d2 d3 d4 d5 d6 d7 d8 d9 post
      h1 h2 h3 h4 h5 h6 h7 h8 h9 hprev hpost with ⟨n, hm⟩
    have hhas : hasMatchB phonePat none
        (pre ++ d1 :: d2 :: d3 :: d4 :: d5 :: d6 :: d7 :: d8 :: d9 :: post) = true :=
      hasMatchB_append phonePat pre _ none (matchSeq_complete _ _ _ _ hm)
    exact ⟨redactPhone_ne_of_match _ hhas, phoneSentinel_in_redactPhone _ hhas⟩

theorem c4_nine_digit_run_witness :
    redactPhone (String.mk (['x', ' '] ++ '1' :: '2' :: '3' :: '4' :: '5' :: '6' :: '7' :: '8' :: '9' :: [])) ≠
      String.mk (['x', ' '] ++ '1' :: '2' :: '3' :: '4' :: '5' :: '6' :: '7' :: '8' :: '9' :: []) ∧
    containsSub phoneSentinel.data
      (redactPhone (String.mk
        (['x', ' '] ++ '1' :: '2' :: '3' :: '4' :: '5' :: '6' :: '7' :: '8' :: '9' :: []))).data = true :=
  c4_phone_token_needs_nine_chars.2 ['x', ' '] [] '1' '2' '3' '4' '5' '6' '7' '8' '9'
    (by decide) (by decide) (by decide) (by decide) (by decide) (by decide)
    (by decide) (by decide) (by decide) (by decide) (by decide)

/-! ## Claim C5 -/

/-- C5 counterexample: the spec's own scenario-2 text has no run of 8
consecutive digits, yet the phone rule matches (the pattern accepts
spaces between digit groups), so rule_counts[phone] = 1 and the text
changes — the claim's conclusion fails while its hypothesis holds. -/
theorem c5_separated_digits_still_match :
    hasLongDigitRun ("Call +44 7911 123456").data = false ∧
    lookupCount "phone" (applyRedactionL "Call +44 7911 123456" ["phone"]).2 = some 1 ∧
    (applyRedactionL "Call +44 7911 123456" ["phone"]).1 ≠ "Call +44 7911 123456" := by
  refine ⟨by decide, by decide, by decide⟩

/-- C5 amended: for every text in which the phone pattern matches nowhere
(no word-bounded token of nine or more characters from the phone classes
with digit endpoints), enabling phone yields rule_counts[phone] = 0 and
the output equals the input; with both rules enabled the output is exactly
the email-substituted text, phone contributing nothing. -/
theorem c5_no_phone_match_no_change (text : String) :
    (hasMatchB phonePat none text.data = false →
      applyRedactionL text ["phone"] = (text, [("phone", 0)])) ∧
    (hasMatchB phonePat none (redactEmail text).data = false →
      applyRedactionL text ["email", "phone"] =
        (redactEmail text,
         [("email", if text = redactEmail text then 0 else 1), ("phone", 0)])) := by
  constructor
  · intro h
    rw [applyRedactionL_phone_only, redactPhone_id_of_no_match text h]
    simp
  · intro h
    rw [applyRedactionL_both, redactPhone_id_of_no_match (redactEmail text) h]
    simp

theorem c5_no_phone_match_witness :
    applyRedactionL "Call 12345678" ["phone"] = ("Call 12345678", [("phone", 0)]) :=
  (c5_no_phone_match_no_change "Call 12345678").1 (by decide)

/-! ## Claim C9 -/

/-- C9 counterexample: "a@b.co xa@b.cox1" contains the word-bounded
email-shaped substring "a@b.co" at its start (shown by the decomposition
and boundary facts); redaction replaces that match and reports count 1,
yet the substring is NOT absent from the output: the character sequence
"a@b.co" survives inside the unmatched tail "xa@b.cox1". -/
theorem c9_substring_survives_in_output :
    ("a@b.co xa@b.cox1").data =
      [] ++ (['a'] ++ '@' :: (['b'] ++ '.' :: (['c', 'o'] ++ (" xa@b.cox1").data))) ∧
    isBoundary (advPrev none []) (['a'].head?) = true ∧
    isBoundary (['c', 'o'].getLast?) ((" xa@b.cox1").data.head?) = true ∧
    lookupCount "email" (applyRedactionL "a@b.co xa@b.cox1" ["email"]).2 = some 1 ∧
    (applyRedactionL "a@b.co xa@b.cox1" ["email"]).1 = "[REDACTED_EMAIL] xa@b.cox1" ∧
    containsSub ("a@b.co").data
      ((applyRedactionL "a@b.co xa@b.cox1" ["email"]).1).data = true := by
  refine ⟨rfl, by decide, by decide, by decide, by decide, by decide⟩

/-- C9 amended: for every text containing a word-bounded email-shaped
substring (local part of letters, digits or dot, underscore, percent,
plus, hyphen; an at sign; a domain of letters, digits, dots or hyphens; a
dot; a top-level segment of 2 or more letters), enabling email yields
rule_counts[email] = 1, the text changes, and the sentinel
[REDACTED_EMAIL] appears in the output; email substitution is applied
before phone substitution.  The matched occurrences are replaced, but the
substring's character sequence can still appear in the output through a
surviving non-word-bounded occurrence, so absence does not hold in
general (see the counterexample). -/
theorem c9_email_occurrence_redacted (text : String)
    (pre loc dom tld post : List Char)
    (hdata : text.data = pre ++ (loc ++ '@' :: (dom ++ '.' :: (tld ++ post))))
    (hloc : loc ≠ []) (hlocall : loc.all isLocalChar = true)
    (hdom : dom ≠ []) (hdomall : dom.all isDomChar = true)
    (htld2 : 2 ≤ tld.length) (htldall : tld.all isAsciiAlpha = true)
    (hb1 : isBoundary (advPrev none pre) loc.head? = true)
    (hb2 : isBoundary tld.getLast? post.head? = true) :
    lookupCount "email" (applyRedactionL text ["email"]).2 = some 1 ∧
    (applyRedactionL text ["email"]).1 ≠ text ∧
    containsSub emailSentinel.data ((applyRedactionL text ["email"]).1).data = true ∧
    (applyRedactionL text ["email", "phone"]).1 = redactPhone (redactEmail text) := by
  rcases email_occ_match (advPrev none pre) loc dom tld post hloc
    (List.all_eq_true.mp hlocall) hdom (List.all_eq_true.mp hdomall)
    htld2 (List.all_eq_true.mp htldall) hb1 hb2 with ⟨n, hm⟩
  have hhas : hasMatchB emailPat none text.data = true := by
    rw [hdata]
    exact hasMatchB_append emailPat pre _ none (matchSeq_complete _ _ _ _ hm)
  have hne := redactEmail_ne_of_match text hhas
  refine ⟨?_, ?_, ?_, ?_⟩
  · rw [applyRedactionL_email_only]
    simp only [lookupCount]
    rw [if_neg (fun hh => hne hh.symm)]
    rfl
  · rw [applyRedactionL_email_only]
    exact hne
  · rw [applyRedactionL_email_only]
    exact emailSentinel_in_redactEmail text hhas
  · rw [applyRedactionL_both]

theorem c9_email_occurrence_witness :
    lookupCount "email" (applyRedactionL "a@b.co xa@b.cox1" ["email"]).2 = some 1 ∧
    (applyRedactionL "a@b.co xa@b.cox1" ["email"]).1 ≠ "a@b.co xa@b.cox1" ∧
    containsSub emailSentinel.data
      ((applyRedactionL "a@b.co xa@b.cox1" ["email"]).1).data = true ∧
    (applyRedactionL "a@b.co xa@b.cox1" ["email", "phone"]).1 =
      redactPhone (redactEmail "a@b.co xa@b.cox1") :=
  c9_email_occurrence_redacted "a@b.co xa@b.cox1" [] ['a'] ['b'] ['c', 'o']
    (" xa@b.cox1").data rfl (by decide) (by decide) (by decide) (by decide)
    (by decide) (by decide) (by decide) (by decide)

/-! ## Claim C3 -/

/-- UTF-8 encoding distributes over string concatenation. -/
theorem utf8Encode_append (a b : String) :
    utf8Encode (a ++ b) = utf8Encode a ++ utf8Encode b := by
  show ((a ++ b).data).flatMap utf8EncodeChar = _
  have hdata : (a ++ b).data = a.data ++ b.data := rfl
  rw [hdata, List.flatMap_append]
  rfl

/-- Every audit row the handler persists carries the salted hash of the
validated (trimmed) request text under the salt in effect. -/
theorem anonymise_writes_cvHash (env : Env) (st : CacheSt) (text : String) :
    ∀ it ∈ (anonymise env st text).writes,
      it.cvHash = saltedHash (pyStrip text) (effectiveSalt env st) := by
  intro it hit
  by_cases hb : pyStrip text = ""
  · rw [c10_blank_text_leaves_state_unchanged env st text hb] at hit
    simp at hit
  · simp only [anonymise] at hit
    rw [if_neg hb] at hit
    split at hit
    next fields hrules =>
      split at hit
      next e happ =>
        exact absurd hit (by simp)
      next anonymised counts happ =>
        split at hit
        next salt hsalt =>
          split at hit
          next e hw =>
            exact absurd hit (by simp)
          next b items hw =>
            have hmem : it ∈ items := hit
            have hch := writeAudit_writes env env.newUuid
              (saltedHash (pyStrip text) salt) counts b items hw it hmem
            rw [hch]
            have hsalteq : effectiveSalt env st = salt := by
              unfold effectiveSalt
              simp only [hrules, hsalt]
            rw [hsalteq]
        next hsalt =>
          exact absurd hit (by simp)
    next hrules =>
      exact absurd hit (by simp)

/-- C3 counterexample: for the request text " a" (leading space) the
persisted cvHash is the digest of salt ++ "a" — the trimmed text the
handler rebinds at validation — which differs from the digest of
salt ++ " a" over the original request text required by the claim. -/
theorem c3_hash_is_of_trimmed_not_original :
    ((anonymise ⟨"audit", "demo-salt-change-me", Except.error (),
        fun _ => Except.ok (), 100, "uid-1"⟩ ⟨none, 0⟩ " a").writes.map
      (fun it => it.cvHash)) =
      [sha256Hex (utf8Encode ("demo-salt-change-me" ++ "a"))] ∧
    sha256Hex (utf8Encode ("demo-salt-change-me" ++ "a")) ≠
      sha256Hex (utf8Encode "demo-salt-change-me" ++ utf8Encode " a") := by
  constructor
  · decide
  · decide

/-- C3 amended: _salted_hash concatenates the salt as a string prefix to
the text before hashing (a direct prefix-then-hash construction, not
HMAC): for every text and salt the digest is the lowercase hex SHA-256 of
UTF-8(salt) followed by UTF-8(text), so identical (salt, text) pairs
always yield identical cvHash; and every audit row the handler persists
carries exactly this digest of the salt in effect with the VALIDATED
(trimmed) request text — not the raw request text. -/
theorem c3_cvhash_is_salt_prefix_sha256 :
    (∀ (text salt : String),
      saltedHash text salt = sha256Hex (utf8Encode salt ++ utf8Encode text)) ∧
    (∀ (env : Env) (st : CacheSt) (text : String),
      ∀ it ∈ (anonymise env st text).writes,
        it.cvHash =
          sha256Hex (utf8Encode (effectiveSalt env st) ++ utf8Encode (pyStrip text))) := by
  have hsh : ∀ (text salt : String),
      saltedHash text salt = sha256Hex (utf8Encode salt ++ utf8Encode text) := by
    intro text salt
    show sha256Hex (utf8Encode (salt ++ text)) = _
    rw [utf8Encode_append]
  refine ⟨hsh, ?_⟩
  intro env st text it hit
  rw [anonymise_writes_cvHash env st text it hit]
  exact hsh (pyStrip text) (effectiveSalt env st)

/-! ## Machinery for idempotence: locality and shape of matches -/

theorem advPrev_append (prev : Option Char) (a b : List Char) :
    advPrev prev (a ++ b) = advPrev (advPrev prev a) b := by
  cases hb : b with
  | nil => simp [advPrev_nil]
  | cons c t =>
    rw [advPrev_ne_nil _ (a ++ c :: t) (by simp), advPrev_ne_nil _ (c :: t) (by simp)]
    exact List.getLast?_append_of_ne_nil a (by simp)

theorem wordOpt_advPrev_congr (p1 p2 : Option Char) (l : List Char)
    (hw : wordOpt p1 = wordOpt p2) : wordOpt (advPrev p1 l) = wordOpt (advPrev p2 l) := by
  unfold advPrev
  cases l.getLast? with
  | none => exact hw
  | some c => rfl

theorem head_congr_of_take_congr {w w' : List Char} {n : Nat}
    (htake : w.take n = w'.take n)
    (hword : wordOpt ((w.drop n).head?) = wordOpt ((w'.drop n).head?)) :
    wordOpt w.head? = wordOpt w'.head? := by
  cases n with
  | zero => simpa using hword
  | succ m =>
    cases w with
    | nil =>
      have hnil : w'.take (m + 1) = [] := by
        rw [← htake]
        rfl
      cases w' with
      | nil => rfl
      | cons a b => simp [List.take_succ_cons] at hnil
    | cons a b =>
      cases w' with
      | nil => simp [List.take_succ_cons] at htake
      | cons a2 b2 =>
        rw [List.take_succ_cons, List.take_succ_cons] at htake
        rw [List.head?_cons, List.head?_cons, (List.cons.inj htake).1]

/-- Matching only consults the previous-character context through its
word-ness. -/
theorem MSeq_congr_prev {pat : List RElem} {p1 : Option Char} {s : List Char} {n : Nat}
    (h : MSeq pat p1 s n) :
    ∀ (p2 : Option Char), wordOpt p1 = wordOpt p2 → MSeq pat p2 s n := by
  induction h with
  | nil => intro p2 _; exact MSeq.nil _ _
  | wordB hb _ ih =>
    intro p2 hw
    apply MSeq.wordB
    · rw [isBoundary, ← hw]
      exact hb
    · exact ih p2 hw
  | cls hk hall hlo hhi _ ih =>
    intro p2 hw
    apply MSeq.cls hk hall hlo hhi
    exact ih _ (wordOpt_advPrev_congr _ p2 _ hw)

/-- Matching is local: a match of length n depends only on the first n
characters and the word-ness of the following character. -/
theorem MSeq_locality {pat : List RElem} {prev : Option Char} {w : List Char} {n : Nat}
    (h : MSeq pat prev w n) :
    ∀ (w' : List Char), w.take n = w'.take n →
      wordOpt ((w.drop n).head?) = wordOpt ((w'.drop n).head?) →
      MSeq pat prev w' n := by
  induction h with
  | nil => intro w' _ _; exact MSeq.nil _ _
  | wordB hb h ih =>
    intro w' htake hword
    apply MSeq.wordB
    · rw [isBoundary, ← head_congr_of_take_congr htake hword]
      exact hb
    · exact ih w' htake hword
  | @cls p lo hi rest prev s k m hk hall hlo hhi hsub ih =>
    intro w' htake hword
    have hmlen : m ≤ (s.drop k).length := MSeq_le_length hsub
    have hnlen : k + m ≤ s.length := by
      rw [List.length_drop] at hmlen
      omega
    have htakek : s.take k = w'.take k := by
      have h1 : (s.take (k + m)).take k = (w'.take (k + m)).take k := by rw [htake]
      rw [List.take_take, List.take_take] at h1
      rw [Nat.min_eq_left (by omega)] at h1
      exact h1
    have hklen : k ≤ w'.length := by
      have h1 : (w'.take (k + m)).length = (s.take (k + m)).length := by rw [htake]
      rw [List.length_take, List.length_take] at h1
      omega
    have htaked : (s.drop k).take m = (w'.drop k).take m := by
      have h3 : s.take k ++ (s.drop k).take m = s.take k ++ (w'.drop k).take m := by
        rw [← List.take_add, htake, List.take_add, ← htakek]
      exact List.append_cancel_left h3
    have hdropd : wordOpt (((s.drop k).drop m).head?) = wordOpt (((w'.drop k).drop m).head?) := by
      rw [List.drop_drop, List.drop_drop]
      exact hword
    have hall2 : ∀ c ∈ w'.take k, p c = true := by
      rw [← htakek]
      exact hall
    have hsub2 : MSeq rest (advPrev prev (w'.take k)) (w'.drop k) m := by
      rw [← htakek]
      exact ih (w'.drop k) htaked hdropd
    exact MSeq.cls hklen hall2 hlo hhi hsub2

theorem isLocalChar_not_bracket {c : Char} (h : isLocalChar c = true) :
    c ≠ '[' ∧ c ≠ ']' := by
  constructor
  · intro h2
    subst h2
    exact absurd h (by decide)
  · intro h2
    subst h2
    exact absurd h (by decide)

theorem isDomChar_not_bracket {c : Char} (h : isDomChar c = true) :
    c ≠ '[' ∧ c ≠ ']' := by
  constructor
  · intro h2
    subst h2
    exact absurd h (by decide)
  · intro h2
    subst h2
    exact absurd h (by decide)

theorem isAsciiAlpha_not_bracket {c : Char} (h : isAsciiAlpha c = true) :
    c ≠ '[' ∧ c ≠ ']' := by
  constructor
  · intro h2
    subst h2
    exact absurd h (by decide)
  · intro h2
    subst h2
    exact absurd h (by decide)

theorem isPhoneMidChar_not_bracket {c : Char} (h : isPhoneMidChar c = true) :
    c ≠ '[' ∧ c ≠ ']' := by
  constructor
  · intro h2
    subst h2
    exact absurd h (by decide)
  · intro h2
    subst h2
    exact absurd h (by decide)

theorem isAsciiDigit_not_bracket {c : Char} (h : isAsciiDigit c = true) :
    c ≠ '[' ∧ c ≠ ']' := by
  constructor
  · intro h2
    subst h2
    exact absurd h (by decide)
  · intro h2
    subst h2
    exact absurd h (by decide)

theorem take_eq_singleton_of_one {l : List Char} (h : 1 ≤ l.length) :
    ∃ c, l.take 1 = [c] := by
  cases l with
  | nil => simp at h
  | cons c t => exact ⟨c, rfl⟩

theorem wordOpt_getLast_of_all {l : List Char} (p : Char → Bool)
    (hall : ∀ c ∈ l, p c = true) (hw : ∀ c, p c = true → isWordChar c = true)
    (hne : l ≠ []) : wordOpt l.getLast? = true := by
  cases hlast : l.getLast? with
  | none => exact absurd (List.getLast?_eq_none_iff.mp hlast) hne
  | some c =>
    have := List.mem_of_mem_getLast? hlast
    exact hw c (hall c this)

theorem trailing_nonword_of_boundary {pf : Option Char} {nh : Option Char}
    (hb : isBoundary pf nh = true) (hw : wordOpt pf = true) :
    wordOpt nh = false := by
  rw [isBoundary, hw] at hb
  cases h : wordOpt nh with
  | false => rfl
  | true =>
    rw [h] at hb
    simp at hb

theorem word_of_alpha {c : Char} (h : isAsciiAlpha c = true) : isWordChar c = true := by
  simp [isWordChar, h]

/-- The email pattern has the shape facts: nonempty bracket-free matches
containing an at sign, ending in a letter followed by a non-word
character, starting at a word boundary. -/
theorem emailPat_ok : PatOk emailPat (fun c => c = '@') := by
  intro prev s n h
  have h0 : MSeq [RElem.wordB,
      RElem.cls isLocalChar 1 none,
      RElem.cls (fun c => c = '@') 1 (some 1),
      RElem.cls isDomChar 1 none,
      RElem.cls (fun c => c = '.') 1 (some 1),
      RElem.cls isAsciiAlpha 2 none,
      RElem.wordB] prev s n := h
  clear h
  cases h0 with
  | wordB hb h1 =>
  cases h1 with
  | cls hk1 hall1 hlo1 hhi1 h2 =>
  rename_i k1 n1
  cases h2 with
  | cls hk2 hall2 hlo2 hhi2 h3 =>
  rename_i k2 n2
  cases h3 with
  | cls hk3 hall3 hlo3 hhi3 h4 =>
  rename_i k3 n3
  cases h4 with
  | cls hk4 hall4 hlo4 hhi4 h5 =>
  rename_i k4 n4
  cases h5 with
  | cls hk5 hall5 hlo5 hhi5 h6 =>
  rename_i k5 n5
  cases h6 with
  | wordB hb2 h7 =>
  cases h7
  have hk2e : k2 = 1 := Nat.le_antisymm (hhi2 1 rfl) hlo2
  have hk4e : k4 = 1 := Nat.le_antisymm (hhi4 1 rfl) hlo4
  set s1 := s.drop k1 with hs1
  set s2 := s1.drop k2 with hs2
  set s3 := s2.drop k3 with hs3
  set s4 := s3.drop k4 with hs4
  set T1 := s.take k1 with hT1
  set T2 := s1.take k2 with hT2
  set T3 := s2.take k3 with hT3
  set T4 := s3.take k4 with hT4
  set T5 := s4.take k5 with hT5
  have harith : k1 + (k2 + (k3 + (k4 + (k5 + 0)))) = k1 + (k2 + (k3 + (k4 + k5))) := by omega
  rw [harith]
  have hsplit : s.take (k1 + (k2 + (k3 + (k4 + k5)))) =
      T1 ++ (T2 ++ (T3 ++ (T4 ++ T5))) := by
    rw [List.take_add, List.take_add, List.take_add, List.take_add]
  have hdrop : s.drop (k1 + (k2 + (k3 + (k4 + k5)))) = s4.drop k5 := by
    rw [List.drop_drop, List.drop_drop, List.drop_drop, List.drop_drop]
  have hT5len : 0 < T5.length := by
    rw [hT5, List.length_take]
    omega
  have hT5ne : T5 ≠ [] := List.ne_nil_of_length_pos hT5len
  have hlast5 : (T1 ++ (T2 ++ (T3 ++ (T4 ++ T5)))).getLast? = T5.getLast? := by
    rw [List.getLast?_append_of_ne_nil _ (by simp [hT5ne]),
        List.getLast?_append_of_ne_nil _ (by simp [hT5ne]),
        List.getLast?_append_of_ne_nil _ (by simp [hT5ne]),
        List.getLast?_append_of_ne_nil _ hT5ne]
  have hwordlast : wordOpt T5.getLast? = true :=
    wordOpt_getLast_of_all isAsciiAlpha hall5 (fun c hc => word_of_alpha hc) hT5ne
  refine ⟨by omega, ?_, ?_, ?_, ?_, hb⟩
  · intro c hc
    rw [hsplit] at hc
    rcases List.mem_append.mp hc with h1m | h1m
    · exact isLocalChar_not_bracket (hall1 c h1m)
    rcases List.mem_append.mp h1m with h2m | h2m
    · have : c = '@' := by simpa using hall2 c h2m
      rw [this]
      exact ⟨by decide, by decide⟩
    rcases List.mem_append.mp h2m with h3m | h3m
    · exact isDomChar_not_bracket (hall3 c h3m)
    rcases List.mem_append.mp h3m with h4m | h4m
    · have : c = '.' := by simpa using hall4 c h4m
      rw [this]
      exact ⟨by decide, by decide⟩
    · exact isAsciiAlpha_not_bracket (hall5 c h4m)
  · have hT2len : 0 < T2.length := by
      rw [hT2, List.length_take]
      omega
    rcases List.exists_mem_of_length_pos hT2len with ⟨c, hc⟩
    refine ⟨c, ?_, by simpa using hall2 c hc⟩
    rw [hsplit]
    exact List.mem_append.mpr (Or.inr (List.mem_append.mpr (Or.inl hc)))
  · rw [hsplit, hlast5]
    exact hwordlast
  · rw [hdrop]
    have hprevF : advPrev (advPrev (advPrev (advPrev (advPrev prev T1) T2) T3) T4) T5 =
        T5.getLast? := advPrev_ne_nil _ T5 hT5ne
    rw [hprevF] at hb2
    exact trailing_nonword_of_boundary hb2 hwordlast

/-- The phone pattern has the shape facts: nonempty bracket-free matches
containing a digit, ending in a digit followed by a non-word character,
starting at a word boundary. -/
theorem phonePat_ok : PatOk phonePat isAsciiDigit := by
  intro prev s n h
  have h0 : MSeq [RElem.wordB,
      RElem.cls (fun c => c = '+') 0 (some 1),
      RElem.cls isAsciiDigit 1 (some 1),
      RElem.cls isPhoneMidChar 7 none,
      RElem.cls isAsciiDigit 1 (some 1),
      RElem.wordB] prev s n := h
  clear h
  cases h0 with
  | wordB hb h1 =>
  cases h1 with
  | cls hk1 hall1 hlo1 hhi1 h2 =>
  rename_i k1 n1
  cases h2 with
  | cls hk2 hall2 hlo2 hhi2 h3 =>
  rename_i k2 n2
  cases h3 with
  | cls hk3 hall3 hlo3 hhi3 h4 =>
  rename_i k3 n3
  cases h4 with
  | cls hk4 hall4 hlo4 hhi4 h5 =>
  rename_i k4 n4
  cases h5 with
  | wordB hb2 h6 =>
  cases h6
  have hk2e : k2 = 1 := Nat.le_antisymm (hhi2 1 rfl) hlo2
  have hk4e : k4 = 1 := Nat.le_antisymm (hhi4 1 rfl) hlo4
  set s1 := s.drop k1 with hs1
  set s2 := s1.drop k2 with hs2
  set s3 := s2.drop k3 with hs3
  set T1 := s.take k1 with hT1
  set T2 := s1.take k2 with hT2
  set T3 := s2.take k3 with hT3
  set T4 := s3.take k4 with hT4
  have harith : k1 + (k2 + (k3 + (k4 + 0))) = k1 + (k2 + (k3 + k4)) := by omega
  rw [harith]
  have hsplit : s.take (k1 + (k2 + (k3 + k4))) = T1 ++ (T2 ++ (T3 ++ T4)) := by
    rw [List.take_add, List.take_add, List.take_add]
  have hdrop : s.drop (k1 + (k2 + (k3 + k4))) = s3.drop k4 := by
    rw [List.drop_drop, List.drop_drop, List.drop_drop]
  have hT4len : 0 < T4.length := by
    rw [hT4, List.length_take]
    omega
  have hT4ne : T4 ≠ [] := List.ne_nil_of_length_pos hT4len
  have hlast4 : (T1 ++ (T2 ++ (T3 ++ T4))).getLast? = T4.getLast? := by
    rw [List.getLast?_append_of_ne_nil _ (by simp [hT4ne]),
        List.getLast?_append_of_ne_nil _ (by simp [hT4ne]),
        List.getLast?_append_of_ne_nil _ hT4ne]
  have hwordlast : wordOpt T4.getLast? = true :=
    wordOpt_getLast_of_all isAsciiDigit hall4 (fun c hc => word_of_digit hc) hT4ne
  refine ⟨by omega, ?_, ?_, ?_, ?_, hb⟩
  · intro c hc
    rw [hsplit] at hc
    rcases List.mem_append.mp hc with h1m | h1m
    · have : c = '+' := by simpa using hall1 c h1m
      rw [this]
      exact ⟨by decide, by decide⟩
    rcases List.mem_append.mp h1m with h2m | h2m
    · exact isAsciiDigit_not_bracket (hall2 c h2m)
    rcases List.mem_append.mp h2m with h3m | h3m
    · exact isPhoneMidChar_not_bracket (hall3 c h3m)
    · exact isAsciiDigit_not_bracket (hall4 c h3m)
  · have hT2len : 0 < T2.length := by
      rw [hT2, List.length_take]
      omega
    rcases List.exists_mem_of_length_pos hT2len with ⟨c, hc⟩
    refine ⟨c, ?_, hall2 c hc⟩
    rw [hsplit]
    exact List.mem_append.mpr (Or.inr (List.mem_append.mpr (Or.inl hc)))
  · rw [hsplit, hlast4]
    exact hwordlast
  · rw [hdrop]
    have hprevF : advPrev (advPrev (advPrev (advPrev prev T1) T2) T3) T4 =
        T4.getLast? := advPrev_ne_nil _ T4 hT4ne
    rw [hprevF] at hb2
    exact trailing_nonword_of_boundary hb2 hwordlast

theorem c3_cvhash_witness :
    (⟨"uid-1", 100, 604900, saltedHash "hi" "demo-salt-change-me",
        [("email", 0), ("phone", 0)]⟩ : AuditItem).cvHash =
      sha256Hex (utf8Encode (effectiveSalt
          ⟨"audit", "demo-salt-change-me", Except.error (),
            fun _ => Except.ok (), 100, "uid-1"⟩ ⟨none, 0⟩) ++
        utf8Encode (pyStrip " hi ")) :=
  c3_cvhash_is_salt_prefix_sha256.2
    ⟨"audit", "demo-salt-change-me", Except.error (), fun _ => Except.ok (), 100, "uid-1"⟩
    ⟨none, 0⟩ " hi "
    ⟨"uid-1", 100, 604900, saltedHash "hi" "demo-salt-change-me", [("email", 0), ("phone", 0)]⟩
    (by decide)

/-! ## Positional characterisation of the scanning match test -/

theorem hasMatchB_eq_true_iff (pat : List RElem) :
    ∀ (s : List Char) (prev : Option Char),
      hasMatchB pat prev s = true ↔
        ∃ i, i ≤ s.length ∧
          (matchSeq pat (advPrev prev (s.take i)) (s.drop i)).isSome = true := by
  intro s
  induction s with
  | nil =>
    intro prev
    constructor
    · intro h
      exact ⟨0, Nat.le_refl 0, by simpa [hasMatchB, advPrev_nil] using h⟩
    · rintro ⟨i, hi, h⟩
      have hi0 : i = 0 := Nat.le_zero.mp hi
      subst hi0
      simpa [hasMatchB, advPrev_nil] using h
  | cons c t ih =>
    intro prev
    constructor
    · intro h
      simp only [hasMatchB, Bool.or_eq_true] at h
      rcases h with h | h
      · refine ⟨0, Nat.zero_le _, ?_⟩
        simpa [advPrev_nil] using h
      · rcases (ih (some c)).mp h with ⟨i, hi, hsome⟩
        refine ⟨i + 1, by simpa using Nat.succ_le_succ hi, ?_⟩
        rw [List.take_succ_cons, advPrev_cons, List.drop_succ_cons]
        exact hsome
    · rintro ⟨i, hi, h⟩
      simp only [hasMatchB, Bool.or_eq_true]
      cases i with
      | zero =>
        exact Or.inl (by simpa [advPrev_nil] using h)
      | succ i =>
        rw [List.take_succ_cons, advPrev_cons, List.drop_succ_cons] at h
        simp only [List.length_cons] at hi
        exact Or.inr ((ih (some c)).mpr ⟨i, Nat.le_of_succ_le_succ hi, h⟩)

theorem hasMatchB_eq_false_iff (pat : List RElem) (s : List Char) (prev : Option Char) :
    hasMatchB pat prev s = false ↔
      ∀ i, i ≤ s.length → matchSeq pat (advPrev prev (s.take i)) (s.drop i) = none := by
  constructor
  · intro h i hi
    cases hm : matchSeq pat (advPrev prev (s.take i)) (s.drop i) with
    | none => rfl
    | some n =>
      have ht : hasMatchB pat prev s = true :=
        (hasMatchB_eq_true_iff pat s prev).mpr ⟨i, hi, by rw [hm]; rfl⟩
      rw [h] at ht
      exact Bool.noConfusion ht
  · intro h
    cases hb : hasMatchB pat prev s with
    | false => rfl
    | true =>
      rcases (hasMatchB_eq_true_iff pat s prev).mp hb with ⟨i, hi, hsome⟩
      rw [h i hi] at hsome
      exact Bool.noConfusion hsome

/-- A clean string stays clean on every suffix, with the rolled-forward
context. -/
theorem hasMatchB_suffix_clean (pat : List RElem) :
    ∀ (x y : List Char) (prev : Option Char),
      hasMatchB pat prev (x ++ y) = false →
      hasMatchB pat (advPrev prev x) y = false := by
  intro x
  induction x with
  | nil =>
    intro y prev h
    simpa [advPrev_nil] using h
  | cons c t ih =>
    intro y prev h
    rw [List.cons_append] at h
    simp only [hasMatchB, Bool.or_eq_false_iff] at h
    rw [advPrev_cons]
    exact ih y (some c) h.2

/-- Cleanliness of a concatenation from position-wise non-matching on the
left part and cleanliness of the right part. -/
theorem hasMatchB_false_append (pat : List RElem) :
    ∀ (x y : List Char) (prev : Option Char),
      (∀ j, j < x.length →
        matchSeq pat (advPrev prev (x.take j)) (x.drop j ++ y) = none) →
      hasMatchB pat (advPrev prev x) y = false →
      hasMatchB pat prev (x ++ y) = false := by
  intro x
  induction x with
  | nil =>
    intro y prev _ h2
    simpa [advPrev_nil] using h2
  | cons c t ih =>
    intro y prev h1 h2
    rw [List.cons_append]
    simp only [hasMatchB, Bool.or_eq_false_iff]
    constructor
    · have h0 := h1 0 (by simp)
      simp only [List.take_zero, List.drop_zero, advPrev_nil] at h0
      rw [List.cons_append] at h0
      simp [h0]
    · apply ih y (some c)
      · intro j hj
        have hj1 := h1 (j + 1) (by simpa using Nat.succ_lt_succ hj)
        rw [List.take_succ_cons, advPrev_cons, List.drop_succ_cons] at hj1
        exact hj1
      · rw [advPrev_cons] at h2
        exact h2

/-- First-match decomposition of the substitution scan: when the pattern
matches somewhere and never matches emptily, the output is the match-free
prefix, then the replacement, then the scan of the remainder. -/
theorem subScan_decomp (pat : List RElem) (repl : List Char)
    (hpos : ∀ (p : Option Char) (w : List Char) (m : Nat), MSeq pat p w m → 1 ≤ m) :
    ∀ (s : List Char) (prev : Option Char),
      hasMatchB pat prev s = true →
      ∃ i n, 1 ≤ n ∧ i + n ≤ s.length ∧
        (∀ j, j < i → matchSeq pat (advPrev prev (s.take j)) (s.drop j) = none) ∧
        matchSeq pat (advPrev prev (s.take i)) (s.drop i) = some n ∧
        subScan pat repl prev s =
          s.take i ++ repl ++
            subScan pat repl (advPrev prev (s.take (i + n))) (s.drop (i + n)) := by
  intro s
  induction s with
  | nil =>
    intro prev h
    exfalso
    simp only [hasMatchB] at h
    rcases Option.isSome_iff_exists.mp h with ⟨n, hn⟩
    have hm := matchSeq_sound pat prev [] n hn
    have h1 := hpos prev [] n hm
    have h2 := MSeq_le_length hm
    simp only [List.length_nil] at h2
    omega
  | cons c t ih =>
    intro prev h
    cases hm : matchSeq pat prev (c :: t) with
    | some n =>
      cases n with
      | zero =>
        exfalso
        have := hpos prev (c :: t) 0 (matchSeq_sound pat prev (c :: t) 0 hm)
        omega
      | succ m =>
        refine ⟨0, m + 1, Nat.le_add_left 1 m, ?_, ?_, ?_, ?_⟩
        · have := MSeq_le_length (matchSeq_sound pat prev (c :: t) (m + 1) hm)
          simpa using this
        · intro j hj
          exact absurd hj (Nat.not_lt_zero j)
        · simpa [advPrev_nil] using hm
        · rw [subScan_cons, hm]
          show repl ++ subScan pat repl (advPrev prev ((c :: t).take (m + 1)))
              ((c :: t).drop (m + 1)) = _
          simp
    | none =>
      have hrest : hasMatchB pat (some c) t = true := by
        simp only [hasMatchB, hm, Bool.or_eq_true] at h
        rcases h with h | h
        · exact absurd h (by simp)
        · exact h
      rcases ih (some c) hrest with ⟨i, n, h1, h2, h3, h4, h5⟩
      refine ⟨i + 1, n, h1, ?_, ?_, ?_, ?_⟩
      · simp only [List.length_cons]
        omega
      · intro j hj
        cases j with
        | zero => simpa [advPrev_nil] using hm
        | succ j =>
          rw [List.take_succ_cons, advPrev_cons, List.drop_succ_cons]
          exact h3 j (Nat.lt_of_succ_lt_succ hj)
      · rw [List.take_succ_cons, advPrev_cons, List.drop_succ_cons]
        exact h4
      · rw [subScan_cons, hm]
        show c :: subScan pat repl (some c) t = _
        rw [h5]
        have hidx : i + 1 + n = (i + n) + 1 := by omega
        rw [hidx, List.take_succ_cons, List.take_succ_cons, advPrev_cons,
            List.drop_succ_cons]
        simp

theorem head_mem_take_append (c : Char) (y : List Char) :
    ∀ (x : List Char) (m : Nat), x.length < m → c ∈ (x ++ c :: y).take m := by
  intro x
  induction x with
  | nil =>
    intro m hm
    cases m with
    | zero => exact absurd hm (by omega)
    | succ m =>
      rw [List.nil_append, List.take_succ_cons]
      exact List.mem_cons_self c _
  | cons a t ih =>
    intro m hm
    cases m with
    | zero => exact absurd hm (by omega)
    | succ m =>
      rw [List.cons_append, List.take_succ_cons]
      apply List.mem_cons_of_mem
      apply ih
      simp only [List.length_cons] at hm
      omega

/-- No match of a pattern whose matches are bracket-free and contain a
marker can start inside a sentinel whose interior lacks the marker. -/
theorem sentinel_no_match (patC : List RElem) (markC : Char → Bool)
    (hokC : PatOk patC markC) (rmid : List Char)
    (hmid : ∀ c ∈ rmid, markC c = false)
    (r : Nat) (tail : List Char) (ctx : Option Char)
    (hr : r < rmid.length + 2) :
    matchSeq patC ctx ((('[' :: rmid ++ [']']).drop r) ++ tail) = none := by
  cases hms : matchSeq patC ctx ((('[' :: rmid ++ [']']).drop r) ++ tail) with
  | none => rfl
  | some m =>
    exfalso
    have hseq := matchSeq_sound _ _ _ _ hms
    rcases hokC _ _ _ hseq with ⟨hm1, hbr, ⟨cm, hcm, hcmark⟩, _, _, _⟩
    cases r with
    | zero =>
      have hw : (('[' :: rmid ++ [']']).drop 0) ++ tail =
          '[' :: ((rmid ++ [']']) ++ tail) := by simp
      have hmem : '[' ∈ ((('[' :: rmid ++ [']']).drop 0) ++ tail).take m := by
        rw [hw]
        cases m with
        | zero => exact absurd hm1 (by omega)
        | succ k =>
          rw [List.take_succ_cons]
          exact List.mem_cons_self _ _
      exact (hbr '[' hmem).1 rfl
    | succ r2 =>
      have hr2 : r2 ≤ rmid.length := by omega
      have hw : (('[' :: rmid ++ [']']).drop (r2 + 1)) ++ tail =
          rmid.drop r2 ++ (']' :: tail) := by
        rw [List.drop_append_of_le_length (by simp only [List.length_cons]; omega),
            List.drop_succ_cons]
        simp
      by_cases hmd : m ≤ (rmid.drop r2).length
      · have hcm2 : cm ∈ (rmid.drop r2).take m := by
          rw [hw, List.take_append_of_le_length hmd] at hcm
          exact hcm
        have hcm3 : cm ∈ rmid :=
          List.mem_of_mem_drop (List.mem_of_mem_take hcm2)
        rw [hmid cm hcm3] at hcmark
        exact Bool.noConfusion hcmark
      · have hmem : ']' ∈ ((('[' :: rmid ++ [']']).drop (r2 + 1)) ++ tail).take m := by
          rw [hw]
          exact head_mem_take_append ']' tail (rmid.drop r2) m (by omega)
        exact (hbr ']' hmem).2 rfl

/-- Cleanliness only depends on the initial context through its word-ness,
or not at all when both the context and the first character are
non-word. -/
theorem clean_prev_transfer (pat : List RElem) (mark : Char → Bool)
    (hok : PatOk pat mark) (s : List Char) (prevIn prevOut : Option Char)
    (hlink : wordOpt prevOut = wordOpt prevIn ∨
      (wordOpt prevOut = false ∧ wordOpt s.head? = false))
    (hclean : hasMatchB pat prevIn s = false) :
    hasMatchB pat prevOut s = false := by
  rw [hasMatchB_eq_false_iff] at hclean ⊢
  intro i hi
  cases i with
  | zero =>
    simp only [List.take_zero, List.drop_zero, advPrev_nil]
    cases hms : matchSeq pat prevOut s with
    | none => rfl
    | some m =>
      exfalso
      have hseq := matchSeq_sound _ _ _ _ hms
      rcases hlink with hlink | ⟨ho, hh⟩
      · have hseq2 := MSeq_congr_prev hseq prevIn hlink
        have hsome := matchSeq_complete _ _ _ _ hseq2
        have h0 := hclean 0 (Nat.zero_le _)
        simp only [List.take_zero, List.drop_zero, advPrev_nil] at h0
        rw [h0] at hsome
        exact Bool.noConfusion hsome
      · have hb := (hok _ _ _ hseq).2.2.2.2.2
        rw [isBoundary, ho, hh] at hb
        simp at hb
  | succ i =>
    have hne : s.take (i + 1) ≠ [] := by
      apply List.ne_nil_of_length_pos
      rw [List.length_take]
      omega
    rw [advPrev_ne_nil prevOut _ hne, ← advPrev_ne_nil prevIn _ hne]
    exact hclean (i + 1) hi

theorem head?_take_pos (l : List Char) (k : Nat) (hk : 0 < k) :
    (l.take k).head? = l.head? := by
  cases l with
  | nil => simp
  | cons c t =>
    cases k with
    | zero => exact absurd hk (by omega)
    | succ k => rw [List.take_succ_cons, List.head?_cons, List.head?_cons]

/-- Master cleanliness lemma for the substitution scan: replacing every
match of a shape-well-behaved pattern with a bracket-delimited sentinel
whose interior lacks the checked pattern's marker yields output with no
match of the checked pattern, provided the checked pattern is the scanned
pattern itself or the input was already free of its matches.  The context
link allows the output context to differ from the input context only when
both it and the upcoming character are non-word. -/
theorem scan_clean_master (patS : List RElem) (markS : Char → Bool)
    (patC : List RElem) (markC : Char → Bool) (rmid : List Char)
    (hokS : PatOk patS markS) (hokC : PatOk patC markC)
    (hmid : ∀ c ∈ rmid, markC c = false) :
    ∀ (L : Nat) (s : List Char) (prevIn prevOut : Option Char),
      s.length ≤ L →
      (wordOpt prevOut = wordOpt prevIn ∨
        (wordOpt prevOut = false ∧ wordOpt s.head? = false)) →
      (patC = patS ∨ hasMatchB patC prevIn s = false) →
      hasMatchB patC prevOut (subScan patS ('[' :: rmid ++ [']']) prevIn s) = false := by
  intro L
  induction L with
  | zero =>
    intro s prevIn prevOut hL hlink hclean
    have hs : s = [] := List.eq_nil_of_length_eq_zero (Nat.le_zero.mp hL)
    subst hs
    have hms : matchSeq patS prevIn [] = none := by
      cases hm : matchSeq patS prevIn [] with
      | none => rfl
      | some k =>
        have hseq := matchSeq_sound _ _ _ _ hm
        have h1 := (hokS _ _ _ hseq).1
        have h2 := MSeq_le_length hseq
        simp only [List.length_nil] at h2
        exact absurd h2 (by omega)
    rw [subScan_nil, hms]
    show hasMatchB patC prevOut [] = false
    simp only [hasMatchB]
    cases hm : matchSeq patC prevOut [] with
    | none => rfl
    | some k =>
      have hseq := matchSeq_sound _ _ _ _ hm
      have h1 := (hokC _ _ _ hseq).1
      have h2 := MSeq_le_length hseq
      simp only [List.length_nil] at h2
      exact absurd h2 (by omega)
  | succ L ih =>
    intro s prevIn prevOut hL hlink hclean
    cases hb : hasMatchB patS prevIn s with
    | false =>
      rw [subScan_id_of_no_match patS ('[' :: rmid ++ [']']) s prevIn hb]
      have hcleanC : hasMatchB patC prevIn s = false := by
        rcases hclean with hceq | hcl
        · rw [hceq]
          exact hb
        · exact hcl
      exact clean_prev_transfer patC markC hokC s prevIn prevOut hlink hcleanC
    | true =>
      rcases subScan_decomp patS ('[' :: rmid ++ [']'])
          (fun p w m hm => (hokS p w m hm).1) s prevIn hb with
        ⟨i, n, hn1, hin, hpre, hmatch, heq⟩
      rw [heq]
      generalize hO : subScan patS ('[' :: rmid ++ [']'])
          (advPrev prevIn (s.take (i + n))) (s.drop (i + n)) = O
      have hilen : (s.take i).length = i := by
        rw [List.length_take]
        omega
      have hseqM := matchSeq_sound _ _ _ _ hmatch
      rcases hokS _ _ _ hseqM with ⟨_, _, _, hMlast, hMnext, hMbound⟩
      have hpost : wordOpt ((s.drop (i + n)).head?) = false := by
        rw [← List.drop_drop]
        exact hMnext
      apply hasMatchB_false_append patC (s.take i ++ ('[' :: rmid ++ [']'])) O prevOut
      · intro j hj
        by_cases hji : j < i
        · have hjs : j ≤ s.length := by omega
          have hxt : (s.take i ++ ('[' :: rmid ++ [']'])).take j = s.take j := by
            rw [List.take_append_of_le_length (by rw [hilen]; omega),
                List.take_take, Nat.min_eq_left (by omega)]
          have hxd : (s.take i ++ ('[' :: rmid ++ [']'])).drop j ++ O =
              (s.drop j).take (i - j) ++ ('[' :: (rmid ++ (']' :: O))) := by
            rw [List.drop_append_of_le_length (by rw [hilen]; omega), List.drop_take]
            simp
          rw [hxt, hxd]
          cases hms : matchSeq patC (advPrev prevOut (s.take j))
              ((s.drop j).take (i - j) ++ ('[' :: (rmid ++ (']' :: O)))) with
          | none => rfl
          | some m =>
            exfalso
            have hseqC := matchSeq_sound _ _ _ _ hms
            rcases hokC _ _ _ hseqC with ⟨_, hbrC, _, hlastC, _, hboundC⟩
            have hBlen : ((s.drop j).take (i - j)).length = i - j := by
              rw [List.length_take, List.length_drop]
              omega
            have hmd : m ≤ i - j := by
              by_contra hcon
              have hmem : '[' ∈ (((s.drop j).take (i - j)) ++
                  ('[' :: (rmid ++ (']' :: O)))).take m :=
                head_mem_take_append '[' (rmid ++ (']' :: O)) _ m (by rw [hBlen]; omega)
              exact (hbrC '[' hmem).1 rfl
            have htakeEq : (((s.drop j).take (i - j)) ++
                ('[' :: (rmid ++ (']' :: O)))).take m = (s.drop j).take m := by
              rw [List.take_append_of_le_length (by rw [hBlen]; omega),
                  List.take_take, Nat.min_eq_left (by omega)]
            have hword : wordOpt (((((s.drop j).take (i - j)) ++
                ('[' :: (rmid ++ (']' :: O)))).drop m).head?) =
                wordOpt (((s.drop j).drop m).head?) := by
              by_cases hlt : m < i - j
              · have hBne : (((s.drop j).take (i - j)).drop m) ≠ [] := by
                  apply List.ne_nil_of_length_pos
                  rw [List.length_drop, hBlen]
                  omega
                rw [List.drop_append_of_le_length (by rw [hBlen]; omega),
                    head?_append_of_ne_nil _ _ hBne, List.drop_take,
                    head?_take_pos _ _ (by omega)]
              · have hmeq : m = i - j := by omega
                have hL2 : ((((s.drop j).take (i - j)) ++
                    ('[' :: (rmid ++ (']' :: O)))).drop m) =
                    '[' :: (rmid ++ (']' :: O)) :=
                  List.drop_left' (by rw [hBlen]; omega)
                have hR : (s.drop j).drop m = s.drop i := by
                  rw [List.drop_drop, (by omega : j + m = i)]
                rw [hL2, hR]
                have hBneF : (s.drop j).take (i - j) ≠ [] := by
                  apply List.ne_nil_of_length_pos
                  rw [hBlen]
                  omega
                have hsplit : s.take i = s.take j ++ (s.drop j).take (i - j) := by
                  have h2 := List.take_add s j (i - j)
                  rw [(by omega : j + (i - j) = i)] at h2
                  exact h2
                have hadv : advPrev prevIn (s.take i) =
                    ((s.drop j).take (i - j)).getLast? := by
                  rw [hsplit, advPrev_append, advPrev_ne_nil _ _ hBneF]
                rw [htakeEq, hmeq] at hlastC
                have hbound2 := hMbound
                rw [hadv, isBoundary, hlastC] at hbound2
                have hword2 : wordOpt ((s.drop i).head?) = false := by
                  cases hW : wordOpt ((s.drop i).head?) with
                  | false => rfl
                  | true =>
                    rw [hW] at hbound2
                    simp at hbound2
                rw [hword2, List.head?_cons]
                decide
            have hseqIn : MSeq patC (advPrev prevOut (s.take j)) (s.drop j) m :=
              MSeq_locality hseqC (s.drop j) htakeEq hword
            have hnone : matchSeq patC (advPrev prevIn (s.take j)) (s.drop j) = none := by
              rcases hclean with hceq | hcl
              · rw [hceq]
                exact hpre j hji
              · exact (hasMatchB_eq_false_iff patC s prevIn).mp hcl j hjs
            cases j with
            | zero =>
              simp only [List.take_zero, advPrev_nil, List.drop_zero] at hseqIn hnone
              rcases hlink with hlk | ⟨ho, hh⟩
              · have hs2 := MSeq_congr_prev hseqIn prevIn hlk
                have hsome := matchSeq_complete _ _ _ _ hs2
                rw [hnone] at hsome
                exact Bool.noConfusion hsome
              · have hb2 := hboundC
                simp only [List.take_zero, advPrev_nil, List.drop_zero,
                  Nat.sub_zero] at hb2
                have hne2 : s.take i ≠ [] := by
                  apply List.ne_nil_of_length_pos
                  rw [hilen]
                  omega
                rw [head?_append_of_ne_nil _ _ hne2,
                    head?_take_pos s i (by omega), isBoundary, ho, hh] at hb2
                simp at hb2
            | succ j2 =>
              have hne2 : s.take (j2 + 1) ≠ [] := by
                apply List.ne_nil_of_length_pos
                rw [List.length_take]
                omega
              rw [advPrev_ne_nil prevOut _ hne2] at hseqIn
              rw [advPrev_ne_nil prevIn _ hne2] at hnone
              have hsome := matchSeq_complete _ _ _ _ hseqIn
              rw [hnone] at hsome
              exact Bool.noConfusion hsome
        · have hrle : i ≤ j := Nat.le_of_not_lt hji
          obtain ⟨r, hr⟩ := Nat.exists_eq_add_of_le hrle
          subst hr
          have hxd : (s.take i ++ ('[' :: rmid ++ [']'])).drop (i + r) =
              ('[' :: rmid ++ [']']).drop r := by
            rw [(by rw [hilen] : i + r = (s.take i).length + r), List.drop_append]
          rw [hxd]
          have hrlt : r < rmid.length + 2 := by
            simp only [List.length_append, List.length_cons, List.length_nil,
              hilen] at hj
            omega
          exact sentinel_no_match patC markC hokC rmid hmid r O _ hrlt
      · have hctx : advPrev prevOut (s.take i ++ ('[' :: rmid ++ [']'])) = some ']' := by
          rw [advPrev_ne_nil _ _ (by simp),
              List.getLast?_append_of_ne_nil _ (by simp),
              List.getLast?_append_of_ne_nil _ (by simp)]
          rfl
        rw [hctx, ← hO]
        apply ih (s.drop (i + n)) (advPrev prevIn (s.take (i + n))) (some ']')
        · rw [List.length_drop]
          omega
        · exact Or.inr ⟨by decide, hpost⟩
        · rcases hclean with hceq | hcl
          · exact Or.inl hceq
          · refine Or.inr (hasMatchB_suffix_clean patC (s.take (i + n))
              (s.drop (i + n)) prevIn ?_)
            rw [List.take_append_drop]
            exact hcl

/-- The email scan's own output has no email match left. -/
theorem redactEmail_email_clean (text : String) :
    hasMatchB emailPat none (redactEmail text).data = false := by
  have hrepl : emailSentinel.data = '[' :: "REDACTED_EMAIL".data ++ [']'] := by decide
  show hasMatchB emailPat none (subScan emailPat emailSentinel.data none text.data) = false
  rw [hrepl]
  exact scan_clean_master emailPat (fun c => c = '@') emailPat (fun c => c = '@')
    "REDACTED_EMAIL".data emailPat_ok emailPat_ok (by decide)
    text.data.length text.data none none (Nat.le_refl _) (Or.inl rfl) (Or.inl rfl)

/-- The phone scan's own output has no phone match left. -/
theorem redactPhone_phone_clean (text : String) :
    hasMatchB phonePat none (redactPhone text).data = false := by
  have hrepl : phoneSentinel.data = '[' :: "REDACTED_PHONE".data ++ [']'] := by decide
  show hasMatchB phonePat none (subScan phonePat phoneSentinel.data none text.data) = false
  rw [hrepl]
  exact scan_clean_master phonePat isAsciiDigit phonePat isAsciiDigit
    "REDACTED_PHONE".data phonePat_ok phonePat_ok (by decide)
    text.data.length text.data none none (Nat.le_refl _) (Or.inl rfl) (Or.inl rfl)

/-- The phone scan preserves freedom from email matches. -/
theorem redactPhone_keeps_email_clean (text : String)
    (h : hasMatchB emailPat none text.data = false) :
    hasMatchB emailPat none (redactPhone text).data = false := by
  have hrepl : phoneSentinel.data = '[' :: "REDACTED_PHONE".data ++ [']'] := by decide
  show hasMatchB emailPat none (subScan phonePat phoneSentinel.data none text.data) = false
  rw [hrepl]
  exact scan_clean_master phonePat isAsciiDigit emailPat (fun c => c = '@')
    "REDACTED_PHONE".data phonePat_ok emailPat_ok (by decide)
    text.data.length text.data none none (Nat.le_refl _) (Or.inl rfl) (Or.inr h)

/-- C8: for every non-empty text, the output of applying the email and
phone rules is a fixed point of the same application: a second pass over
the already-substituted text makes no further substitution and reports
rule counts of 0 for both rules. -/
theorem c8_apply_is_idempotent (text : String) (_h : text ≠ "") :
    applyRedactionL (applyRedactionL text ["email", "phone"]).1 ["email", "phone"] =
      ((applyRedactionL text ["email", "phone"]).1,
        [("email", 0), ("phone", 0)]) := by
  have hec : hasMatchB emailPat none (redactPhone (redactEmail text)).data = false :=
    redactPhone_keeps_email_clean (redactEmail text) (redactEmail_email_clean text)
  have hpc : hasMatchB phonePat none (redactPhone (redactEmail text)).data = false :=
    redactPhone_phone_clean (redactEmail text)
  have hre : redactEmail (redactPhone (redactEmail text)) = redactPhone (redactEmail text) := by
    show String.mk (subScan emailPat emailSentinel.data none
      (redactPhone (redactEmail text)).data) = redactPhone (redactEmail text)
    rw [subScan_id_of_no_match emailPat emailSentinel.data
      (redactPhone (redactEmail text)).data none hec]
  have hrp : redactPhone (redactPhone (redactEmail text)) = redactPhone (redactEmail text) := by
    show String.mk (subScan phonePat phoneSentinel.data none
      (redactPhone (redactEmail text)).data) = redactPhone (redactEmail text)
    rw [subScan_id_of_no_match phonePat phoneSentinel.data
      (redactPhone (redactEmail text)).data none hpc]
  rw [show (applyRedactionL text ["email", "phone"]).1 =
      redactPhone (redactEmail text) from by rw [applyRedactionL_both]]
  rw [applyRedactionL_both (redactPhone (redactEmail text)), hre, hrp]
  simp

/-- Witness for c8_apply_is_idempotent at a concrete non-empty text. -/
theorem c8_apply_is_idempotent_witness :
    ("Email a@b.co or call 0123 456 789" ≠ "") ∧
      applyRedactionL (applyRedactionL "Email a@b.co or call 0123 456 789"
          ["email", "phone"]).1 ["email", "phone"] =
        ((applyRedactionL "Email a@b.co or call 0123 456 789"
            ["email", "phone"]).1, [("email", 0), ("phone", 0)]) :=
  ⟨by decide, c8_apply_is_idempotent "Email a@b.co or call 0123 456 789" (by decide)⟩

end CvAnon
